import Mathlib

/-!
Verification development for the Wormhole timeline / knowledge store.

The TypeScript sources (src/db.ts, src/handlers.ts, the utils module with
extractPatch / validatePatch / filterStaleFileEdits, and the schemas module)
are shallowly embedded below.  Conventions of the embedding:

* The SQLite `timeline` table is a `List Event` in insertion (id) order;
  `addEvent` appends and assigns `max id + 1` (AUTOINCREMENT).
* `Date.now()` is an explicit `now : Nat` parameter (milliseconds).
* The file system read by the staleness validator is an explicit
  `fsread : String → Option String` parameter: `none` models both a missing
  file (`fs.existsSync` false) and a read error (`readFileSync` throwing),
  which the source treats the same way (result `false`).
* Event payloads are stored as JSON strings in the source; consumers only
  ever `JSON.parse` them and read the `file_path` and `diff` properties, so
  the embedding keeps payloads as `EventPayload`: either `malformed` (the
  parse throws) or a field map.  A non-string field value is `JsVal.vother
  truthy tag`: its JS truthiness and its identity (for Map keys) are all the
  source ever observes of it.
* JS strings are Lean `String`s, but every string operation the source uses
  (`trim`, `includes`, `split`, `toLowerCase`, `startsWith`, `slice`,
  `parseInt`, SQL `LIKE`) is re-implemented below by structural recursion on
  `String.data`, so that all definitions evaluate inside the kernel.  The
  re-implementations match the JS / SQLite semantics on the ASCII strings the
  claims are about (Unicode case folding and `parseInt`'s sign/whitespace
  handling, which never arise for the system's `evt_<digits>` cursors and
  ASCII tags, are out of scope and noted where relevant).
* SQLite `REAL` (the `confidence` column) is modelled as `ℚ`; the score
  arithmetic of the search ranker involves only values where IEEE doubles
  and exact rationals agree on all comparisons the claims exercise.
-/

namespace Wormhole

/-! ## JS / SQL string primitives -/

/-- List-level check that `p` is an initial segment of `l` (JS `startsWith`). -/
def chPre : List Char → List Char → Bool
  | [], _ => true
  | _ :: _, [] => false
  | a :: as, b :: bs => a == b && chPre as bs

/-- List-level substring test: `needle` occurs contiguously in the second list
(JS `String.prototype.includes`; the empty needle matches everywhere). -/
def chSub : List Char → List Char → Bool
  | needle, [] => needle.isEmpty
  | needle, h :: t => chPre needle (h :: t) || chSub needle t

/-- JS `hay.includes(needle)`. -/
def sContains (hay needle : String) : Bool := chSub needle.data hay.data

/-- JS `s.startsWith(p)`. -/
def sStarts (s p : String) : Bool := chPre p.data s.data

/-- Whitespace as JS `trim` sees it (ASCII fragment). -/
def isWs (c : Char) : Bool := c.isWhitespace

/-- Character list with leading and trailing whitespace removed. -/
def trimChars (l : List Char) : List Char :=
  ((l.dropWhile isWs).reverse.dropWhile isWs).reverse

/-- JS `s.trim()`. -/
def jsTrim (s : String) : String := ⟨trimChars s.data⟩

/-- JS `s.toLowerCase()` (ASCII). -/
def lowerStr (s : String) : String := ⟨s.data.map Char.toLower⟩

/-- Split a character list at newline characters; JS `s.split('\n')`
semantics, so the empty list yields one empty line. -/
def splitLines : List Char → List (List Char)
  | [] => [[]]
  | c :: t =>
    if c = '\n' then [] :: splitLines t
    else
      match splitLines t with
      | [] => [[c]]
      | h :: r => (c :: h) :: r

/-- JS `s.split('\n')`. -/
def splitNl (s : String) : List String := (splitLines s.data).map String.mk

/-- Join lines with `'\n'`; JS `lines.join('\n')`. -/
def joinNl : List String → String
  | [] => ""
  | [x] => x
  | x :: r => x ++ "\n" ++ joinNl r

/-- JS `s.split(/\s+/).filter(t => t.length > 0)`: maximal non-whitespace runs. -/
def wsWords : List Char → List String
  | [] => []
  | c :: t =>
    if isWs c then wsWords t
    else
      match wsWords t with
      | [] => [⟨[c]⟩]
      | w :: r => if t ≠ [] && isWs t.headI then ⟨[c]⟩ :: w :: r else ⟨c :: w.data⟩ :: r

/-- SQLite `LIKE` with pattern on the left: `%` matches any run, `_` one
character, other characters case-insensitively (ASCII).  A fuel parameter
keeps the recursion structural so the kernel can evaluate it. -/
def likeF : Nat → List Char → List Char → Bool
  | 0, _, _ => false
  | _ + 1, [], [] => true
  | _ + 1, [], _ :: _ => false
  | fuel + 1, '%' :: ps, cs =>
    likeF fuel ps cs ||
      (match cs with
        | [] => false
        | _ :: ct => likeF fuel ('%' :: ps) ct)
  | fuel + 1, '_' :: ps, cs =>
    (match cs with
      | [] => false
      | _ :: ct => likeF fuel ps ct)
  | fuel + 1, p :: ps, cs =>
    (match cs with
      | [] => false
      | c :: ct => (p.toLower == c.toLower) && likeF fuel ps ct)

/-- SQLite `pattern LIKE`: `likeMatch pattern s`. -/
def likeMatch (pattern s : String) : Bool :=
  likeF (pattern.data.length + s.data.length + 1) pattern.data s.data

/-- Decimal digit character for `n < 10`. -/
def digitCh (n : Nat) : Char := Char.ofNat (48 + n)

/-- Decimal digits of `n`, most significant first, by fuel-bounded structural
recursion (any `fuel > n` gives the true digits). -/
def decAux : Nat → Nat → List Char
  | 0, _ => []
  | fuel + 1, n => if n < 10 then [digitCh n] else decAux fuel (n / 10) ++ [digitCh (n % 10)]

/-- Decimal representation of a natural number (JS number-to-string for the
integer ids the system produces). -/
def natToDec (n : Nat) : String := ⟨decAux (n + 1) n⟩

/-- Numeric value of a digit character. -/
def digitVal (c : Char) : Nat := c.toNat - 48

/-- JS `parseInt(s, 10)` restricted to the nonnegative numbers the system
produces: parse the maximal leading run of decimal digits, `none` (NaN) if
there is none.  (Real `parseInt` also skips leading whitespace and accepts a
sign; the system's cursors are `evt_<digits>`, where the two agree.) -/
def jsParseIntNat (s : String) : Option Nat :=
  let ds := s.data.takeWhile Char.isDigit
  if ds.isEmpty then none
  else some (ds.foldl (fun a c => 10 * a + digitVal c) 0)

/-- Remove the first occurrence of `pat` from `l` (JS `s.replace(pat, '')`
with a string pattern, which replaces only the first occurrence). -/
def removeOnce : List Char → List Char → List Char
  | [], _ => []
  | c :: t, p => if chPre p (c :: t) then (c :: t).drop p.length else c :: removeOnce t p

/-- JS `s.replace(pat, '')`. -/
def replaceOnce (s pat : String) : String := ⟨removeOnce s.data pat.data⟩

/-- JSON string escaping for the characters that can occur in tags
(backslash and double quote; control characters do not arise here). -/
def escJson (s : String) : String :=
  ⟨s.data.foldr (fun c acc => if c = '"' || c = '\\' then '\\' :: c :: acc else c :: acc) []⟩

/-- JSON.stringify of a string array, as `addEvent` applies it to tags. -/
def jsonArr (tags : List String) : String :=
  "[" ++ String.intercalate "," (tags.map (fun t => "\"" ++ escJson t ++ "\"")) ++ "]"

/-! ## Data model (types.ts / the SQLite schema) -/

/-- A JS value as the embedded code observes it: a string, or any other value
of which only the truthiness and an identity tag (JS `Map` keys compare
non-strings by identity / numeric value) are ever used. -/
inductive JsVal where
  | vstr (s : String)
  | vother (truthy : Bool) (tag : Nat)
deriving DecidableEq, Repr

/-- JS falsiness of a `JsVal` (the empty string is falsy). -/
def JsVal.falsy : JsVal → Bool
  | .vstr s => s == ""
  | .vother t _ => !t

/-- An event's `payload` column as its consumers observe it: `JSON.parse`
either throws (`malformed`) or yields an object whose properties are read by
name. -/
inductive EventPayload where
  | malformed
  | obj (fields : List (String × JsVal))
deriving DecidableEq, Repr

/-- Row of the `timeline` table (types.ts `TimelineEvent`). -/
structure Event where
  id : Nat
  agent_id : String
  action : String
  payload : EventPayload
  timestamp : Nat
  project_path : String
  isolated : Bool
  session_id : Option String
  tags : Option String
  rejected : Bool
deriving DecidableEq, Repr

/-- Result of `getRecentEvents` (types.ts `QueryResult`). -/
structure QueryResult where
  events : List Event
  cursor : Option String
deriving DecidableEq, Repr

/-- types.ts `KnowledgeType`. -/
inductive KnowledgeType where
  | decision
  | pitfall
  | constraint
  | convention
deriving DecidableEq, Repr

/-- types.ts `SearchIntent`. -/
inductive SearchIntent where
  | debugging
  | feature
  | refactor
  | test
  | unknown
deriving DecidableEq, Repr

/-- Row of the `knowledge_objects` table (types.ts `KnowledgeObject`);
`confidence` is the `REAL` column, modelled as `ℚ`. -/
structure KnowledgeObject where
  id : Nat
  project_path : String
  knowledge_type : KnowledgeType
  title : String
  content : String
  source_event_id : Option Nat
  confidence : ℚ
  created_at : Nat
deriving DecidableEq, Repr

/-- types.ts `KnowledgeSearchResult`: what `searchProjectKnowledge` exposes. -/
structure KSearchResult where
  type : KnowledgeType
  summary : String
  confidence : ℚ
deriving DecidableEq, Repr

/-! ## Generic sorting helper

SQLite's `ORDER BY` and JS `Array.prototype.sort` are modelled by a stable
insertion sort parameterised by a boolean "may come before" relation. -/

/-- Insert `x` into `l`, before the first element `y` with `le x y`. -/
def insSorted (le : α → α → Bool) (x : α) : List α → List α
  | [] => [x]
  | y :: t => if le x y then x :: y :: t else y :: insSorted le x t

/-- Stable insertion sort by the boolean relation `le`. -/
def sortByB (le : α → α → Bool) : List α → List α
  | [] => []
  | x :: t => insSorted le x (sortByB le t)

/-- Descending-timestamp comparison used by the timeline queries
(`ORDER BY timestamp DESC`). -/
def tsDesc (a b : Event) : Bool := decide (b.timestamp ≤ a.timestamp)

/-! ## db.ts: timeline events -/

/-- Next AUTOINCREMENT id for the timeline table. -/
def nextId (tl : List Event) : Nat := (tl.foldr (fun e m => max e.id m) 0) + 1

/-- db.ts `addEvent`: store the event with `rejected = 0`, a fresh id, the
current timestamp, and the tags serialised as a JSON array string (or SQL
NULL when the tag list is empty).  Returns the new table and the new id. -/
def addEvent (tl : List Event) (agent_id action : String) (payload : EventPayload)
    (project_path : String) (isolated : Bool) (session_id : Option String)
    (tags : List String) (now : Nat) : List Event × Nat :=
  let tagsStr : Option String := if tags.length > 0 then some (jsonArr tags) else none
  let id := nextId tl
  (tl ++ [⟨id, agent_id, action, payload, now, project_path, isolated, session_id,
    tagsStr, false⟩], id)

/-- Cursor parsing in db.ts `getRecentEvents`:
`parseInt(since_cursor.replace('evt_', ''), 10)`, `none` when the result is
NaN (in which case the cursor condition is skipped). -/
def parseCursor (c : String) : Option Nat := jsParseIntNat (replaceOnce c "evt_")

/-- The single tag condition of the tag filter in `getRecentEvents`:
`(',' || tags || ',') LIKE '%,' || ? || ',%'`.  A NULL `tags` column makes
the SQL expression NULL, which is not true. -/
def tagCond (stored : Option String) (tag : String) : Bool :=
  match stored with
  | none => false
  | some t => likeMatch ("%," ++ tag ++ ",%") ("," ++ t ++ ",")

/-- Fold step of `pickMaxTs`: keep the strictly later candidate, preferring
the earlier (first-seen) one on ties. -/
def pickStep (e : Event) : Option Event → Option Event
  | none => some e
  | some m => if m.timestamp > e.timestamp then some m else some e

/-- First maximal-timestamp element of a list, in list order. -/
def pickMaxTs : List Event → Option Event
  | [] => none
  | e :: t => pickStep e (pickMaxTs t)

/-- The isolation subquery of `getRecentEvents`: the most recent
(`ORDER BY timestamp DESC LIMIT 1`) event of the project with `isolated = 1`.
Among equal timestamps SQLite's index scan yields the smallest rowid, so the
first maximal-timestamp element in insertion order is chosen. -/
def latestIsolation (tl : List Event) (project_path : String) : Option Event :=
  pickMaxTs (tl.filter (fun e => e.project_path == project_path && e.isolated))

/-- The WHERE clause `getRecentEvents` builds: project equality, the cursor
condition (`id > cursor`) when the cursor string is truthy and parses, the
action-type IN filter when a non-empty list is given, the tag OR-filter when
a non-empty list is given, and `id >= boundary` when the project has an
isolation boundary. -/
def passesFilters (tl : List Event) (project_path : String)
    (since_cursor : Option String) (action_types : Option (List String))
    (tags : Option (List String)) (e : Event) : Bool :=
  (e.project_path == project_path) &&
  (match since_cursor with
    | none => true
    | some c =>
      if c == "" then true
      else
        match parseCursor c with
        | none => true
        | some cid => decide (cid < e.id)) &&
  (match action_types with
    | none => true
    | some l => if l.length > 0 then l.contains e.action else true) &&
  (match tags with
    | none => true
    | some l => if l.length > 0 then l.any (fun t => tagCond e.tags t) else true) &&
  (match latestIsolation tl project_path with
    | none => true
    | some iso => decide (iso.id ≤ e.id))

/-- db.ts `getRecentEvents`: filter, order by timestamp descending, take
`limit`, reverse to oldest-first, and derive the next cursor from the most
recent returned event. -/
def getRecentEvents (tl : List Event) (project_path : String) (limit : Nat)
    (since_cursor : Option String) (action_types : Option (List String))
    (tags : Option (List String)) : QueryResult :=
  let rows := (sortByB tsDesc
    (tl.filter (passesFilters tl project_path since_cursor action_types tags))).take limit
  let events := rows.reverse
  let cursor :=
    match events.getLast? with
    | none => none
    | some e => some ("evt_" ++ natToDec e.id)
  ⟨events, cursor⟩

/-- Append `e` to the group keyed `k` of an association list, creating the
group at the end when absent (JS `Map` insertion-order semantics). -/
def insertGroup (acc : List (JsVal × List Event)) (k : JsVal) (e : Event) :
    List (JsVal × List Event) :=
  match acc with
  | [] => [(k, [e])]
  | (k', evs) :: t => if k' = k then (k', evs ++ [e]) :: t else (k', evs) :: insertGroup t k e

/-- One iteration of the grouping loop in db.ts `getConflicts`: parse the
payload (a parse failure skips the event), read `file_path` (a falsy value
skips it), apply the `files` allow-list (`filePath.includes(f)`; calling
`includes` on a non-string `file_path` throws a TypeError that the
surrounding `try` turns into a skip), and push the event into its group. -/
def conflictStep (files : Option (List String)) (acc : List (JsVal × List Event))
    (e : Event) : List (JsVal × List Event) :=
  match e.payload with
  | .malformed => acc
  | .obj fields =>
    match fields.lookup "file_path" with
    | none => acc
    | some fp =>
      if fp.falsy then acc
      else
        match files with
        | none => insertGroup acc fp e
        | some fl =>
          match fp with
          | .vstr s => if fl.any (fun f => sContains s f) then insertGroup acc fp e else acc
          | .vother _ _ => acc

/-- db.ts `getConflicts`: the file-edit events of the project inside the
trailing window, ordered newest first, grouped by `file_path`, keeping only
groups whose events carry more than one distinct `agent_id`. -/
def getConflicts (tl : List Event) (project_path : String) (time_window_mins : Nat)
    (files : Option (List String)) (now : Nat) : List (JsVal × List Event) :=
  let cutoff := now - time_window_mins * 60 * 1000
  let rows := sortByB tsDesc (tl.filter (fun e =>
    e.project_path == project_path && decide (cutoff < e.timestamp) &&
      e.action == "file_edit"))
  let fileEdits := rows.foldl (conflictStep files) []
  fileEdits.filter (fun g => ((g.2.map Event.agent_id).dedup).length > 1)

/-! ## db.ts: knowledge objects -/

/-- Next AUTOINCREMENT id for the knowledge_objects table. -/
def nextKId (kb : List KnowledgeObject) : Nat := (kb.foldr (fun o m => max o.id m) 0) + 1

/-- db.ts `createKnowledgeObject`: plain insert, no uniqueness constraint. -/
def createKnowledgeObject (kb : List KnowledgeObject) (project_path : String)
    (knowledge_type : KnowledgeType) (title content : String)
    (source_event_id : Option Nat) (confidence : ℚ) (now : Nat) :
    List KnowledgeObject × Nat :=
  let id := nextKId kb
  (kb ++ [⟨id, project_path, knowledge_type, title, content, source_event_id,
    confidence, now⟩], id)

/-- db.ts `knowledgeObjectExists`: `COUNT(*) > 0` over the triple. -/
def knowledgeObjectExists (kb : List KnowledgeObject) (project_path : String)
    (knowledge_type : KnowledgeType) (title : String) : Bool :=
  kb.any (fun o => o.project_path == project_path &&
    o.knowledge_type == knowledge_type && o.title == title)

/-- db.ts `INTENT_TYPE_PRIORITY`. -/
def INTENT_TYPE_PRIORITY : SearchIntent → List KnowledgeType
  | .debugging => [.pitfall, .constraint]
  | .feature => [.decision, .convention]
  | .refactor => [.convention, .constraint]
  | .test => [.pitfall]
  | .unknown => []

/-- The JS guard `query && query.trim()`: the query drives filtering and the
title boost only when it is present, non-empty, and not whitespace-only. -/
def queryActive : Option String → Bool
  | none => false
  | some q => q != "" && jsTrim q != ""

/-- The query filter of `searchProjectKnowledge`: keep an object when any
whitespace-separated term of the lower-cased trimmed query occurs in its
lower-cased title or content. -/
def matchesQuery (q : String) (o : KnowledgeObject) : Bool :=
  let terms := wsWords (jsTrim (lowerStr q)).data
  terms.any (fun t => sContains (lowerStr o.title) t || sContains (lowerStr o.content) t)

/-- Exact rational addition in a form the kernel evaluates (`Rat.add` is
`@[irreducible]`); `qAdd_eq` below identifies it with `+`. -/
def qAdd (a b : ℚ) : ℚ := mkRat (a.num * b.den + b.num * a.den) (a.den * b.den)

/-- The score `searchProjectKnowledge` computes: confidence, plus
`2.0 - typeIndex * 0.5` (written `(4 - typeIndex)/2`) when the object's type
occurs in the intent's priority list, plus `0.5` when an active query's
lower-cased trimmed text occurs in the lower-cased title. -/
def scoreOf (intent : SearchIntent) (query : Option String) (o : KnowledgeObject) : ℚ :=
  let base := qAdd o.confidence
    (match (INTENT_TYPE_PRIORITY intent).findIdx? (fun t => t == o.knowledge_type) with
      | none => mkRat 0 1
      | some i => mkRat (4 - (i : Int)) 2)
  match query with
  | none => base
  | some q =>
    if q != "" && jsTrim q != "" then
      if sContains (lowerStr o.title) (jsTrim (lowerStr q)) then qAdd base (mkRat 1 2)
      else base
    else base

/-- Comparator of the final sort in `searchProjectKnowledge`:
`b.score - a.score`, ties broken by ascending object id. -/
def scoreCmp (intent : SearchIntent) (query : Option String)
    (a b : KnowledgeObject) : Bool :=
  decide (scoreOf intent query b < scoreOf intent query a) ||
    (decide (scoreOf intent query a = scoreOf intent query b) && decide (a.id ≤ b.id))

/-- The SQL pre-sort order of `searchProjectKnowledge`
(`ORDER BY confidence DESC, created_at DESC`). -/
def confRecencyCmp (a b : KnowledgeObject) : Bool :=
  decide (b.confidence < a.confidence) ||
    (decide (a.confidence = b.confidence) && decide (b.created_at ≤ a.created_at))

/-- The scored and fully sorted object list of db.ts
`searchProjectKnowledge`, before the `maxResults` truncation and the output
projection: the project's rows (pre-sorted by confidence then recency, as in
the SQL — the final total-order sort makes that pre-sort irrelevant), the
query filter, then the score sort with the ascending-id tie-break. -/
def searchScored (kb : List KnowledgeObject) (project_path : String)
    (intent : SearchIntent) (query : Option String) : List KnowledgeObject :=
  let mine := kb.filter (fun o => o.project_path == project_path)
  let pre := sortByB confRecencyCmp mine
  let filtered := if queryActive query then pre.filter (matchesQuery (query.getD "")) else pre
  sortByB (scoreCmp intent query) filtered

/-- db.ts `searchProjectKnowledge`: truncate to `maxResults` and project to
`{type, summary, confidence}`. -/
def searchProjectKnowledge (kb : List KnowledgeObject) (project_path : String)
    (intent : SearchIntent) (query : Option String) (maxResults : Nat) :
    List KSearchResult :=
  ((searchScored kb project_path intent query).take maxResults).map
    (fun o => ⟨o.knowledge_type, o.title, o.confidence⟩)

/-! ## utils.ts: payload truncation and the staleness validator -/

/-- utils.ts `truncatePayload`: unchanged when within `maxChars`, otherwise
`payload.slice(0, maxChars - 3) + '...'` with JS `slice` semantics (a
negative end counts from the end of the string). -/
def truncatePayload (payload : String) (maxChars : Nat) : String :=
  if payload.data.length ≤ maxChars then payload
  else
    let stop : Nat :=
      if maxChars < 3 then payload.data.length - min payload.data.length (3 - maxChars)
      else min (maxChars - 3) payload.data.length
    ⟨payload.data.take stop⟩ ++ "..."

/-- Added-line test of the diff scanners: starts with `+` but not `+++`. -/
def isAdd (l : String) : Bool := sStarts l "+" && !sStarts l "+++"

/-- Removed-line test of the diff scanners: starts with `-` but not `---`. -/
def isRem (l : String) : Bool := sStarts l "-" && !sStarts l "---"

/-- Context-line test of `extractPatch`: starts with a space. -/
def isCtx (l : String) : Bool := sStarts l " "

/-- JS `line.substring(1)`. -/
def dropMarker (l : String) : String := ⟨l.data.drop 1⟩

/-- utils.ts `extractPatch`: keep added, removed and context lines of the
diff (skipping the `+++` / `---` file headers), `null` when the diff is
absent, empty (falsy) or contains no such line. -/
def extractPatch (diff : Option String) : Option String :=
  match diff with
  | none => none
  | some d =>
    if d == "" then none
    else
      let patchLines := (splitNl d).filter (fun l => isAdd l || isRem l || isCtx l)
      if patchLines.isEmpty then none else some (joinNl patchLines)

/-- The early-exit loop of `validatePatch` over removed lines: the patch is
stale when some removed line's trimmed text is non-empty and still occurs in
the current file content. -/
def removedStillPresent (content : String) (patchLines : List String) : Bool :=
  patchLines.any (fun l =>
    isRem l && (jsTrim (dropMarker l) != "" && sContains content (jsTrim (dropMarker l))))

/-- The added-line contents `validatePatch` collects: trimmed text of each
added line (empty trims included — they count toward the total). -/
def addedContents (patchLines : List String) : List String :=
  patchLines.filterMap (fun l => if isAdd l then some (jsTrim (dropMarker l)) else none)

/-- The per-added-line match test of `validatePatch`: an empty trimmed line
never matches; otherwise an exact match against some trimmed current line,
or a containment in either direction. -/
def lineMatches (normalizedLines : List String) (patchLine : String) : Bool :=
  patchLine != "" &&
    (normalizedLines.contains patchLine ||
      normalizedLines.any (fun n => sContains n patchLine || sContains patchLine n))

/-- utils.ts `PATCH_VALIDATION_THRESHOLD = 0.6`, as applied:
`Math.ceil(patchContent.length * 0.6)`.  For every list length the double
computation agrees with the exact `⌈3·n/5⌉`, which in natural-number
arithmetic is `(3 * n + 4) / 5`. -/
def validationThreshold (n : Nat) : Nat := (3 * n + 4) / 5

/-- Resolution of the event's file path in `validatePatch`:
`path.isAbsolute` / `path.join(projectPath, filePath)` (POSIX). -/
def resolvePath (filePath projectPath : String) : String :=
  if sStarts filePath "/" then filePath else projectPath ++ "/" ++ filePath

/-- utils.ts `validatePatch`.  `fsread` stands for `fs.existsSync` plus
`fs.readFileSync`: `none` means missing or unreadable (both yield `false`).
A `none` or empty (falsy) patch is vacuously valid. -/
def validatePatch (filePath : String) (patch : Option String) (projectPath : String)
    (fsread : String → Option String) : Bool :=
  match patch with
  | none => true
  | some p =>
    if p == "" then true
    else
      match fsread (resolvePath filePath projectPath) with
      | none => false
      | some content =>
        let patchLines := splitNl p
        if removedStillPresent content patchLines then false
        else
          let patchContent := addedContents patchLines
          if patchContent.isEmpty then true
          else
            let normalizedLines := (splitNl content).map jsTrim
            let matchCount := patchContent.countP (fun l => lineMatches normalizedLines l)
            decide (validationThreshold patchContent.length ≤ matchCount)

/-- The per-event keep decision of utils.ts `filterStaleFileEdits`.
Non-`file_edit` events are always kept; `rejected` file edits are dropped;
then a parse failure, a missing or falsy `file_path`, or a missing or falsy
`diff` keeps the event.  A truthy non-string `file_path` or `diff` makes
`path.isAbsolute` respectively `diff.split` throw, which the surrounding
`try` turns into a keep.  Only a non-empty string path with a non-empty
string diff reaches `extractPatch` / `validatePatch`. -/
def keepEvent (projectPath : String) (fsread : String → Option String) (e : Event) : Bool :=
  if e.action != "file_edit" then true
  else if e.rejected then false
  else
    match e.payload with
    | .malformed => true
    | .obj fields =>
      match fields.lookup "file_path" with
      | none => true
      | some fp =>
        if fp.falsy then true
        else
          match fp with
          | .vother _ _ => true
          | .vstr s =>
            match fields.lookup "diff" with
            | none => true
            | some dv =>
              if dv.falsy then true
              else
                match dv with
                | .vother _ _ => true
                | .vstr d => validatePatch s (extractPatch (some d)) projectPath fsread

/-- utils.ts `filterStaleFileEdits`. -/
def filterStaleFileEdits (events : List Event) (projectPath : String)
    (fsread : String → Option String) : List Event :=
  events.filter (keepEvent projectPath fsread)

/-! ## handlers.ts -/

/-- The content-truncation loop of handlers.ts `handleLog`: every string
field except `diff` goes through `truncatePayload`; `diff` and non-string
values are stored untouched. -/
def truncateContent (content : List (String × JsVal)) (maxChars : Nat) :
    List (String × JsVal) :=
  content.map (fun kv =>
    match kv.2 with
    | .vstr s => if kv.1 != "diff" then (kv.1, .vstr (truncatePayload s maxChars)) else kv
    | .vother _ _ => kv)

/-- handlers.ts `handleLog`, reduced to its store effect: truncate the
content, serialise it as the payload, and append the event via `addEvent`
(with the active session attached; session lookup is orthogonal to the
claims and passed in directly). -/
def handleLog (tl : List Event) (agent_id action : String)
    (content : List (String × JsVal)) (project_path : String) (isolate : Bool)
    (session : Option String) (tags : List String) (maxChars : Nat) (now : Nat) :
    List Event × Nat :=
  addEvent tl agent_id action (.obj (truncateContent content maxChars))
    project_path isolate session tags now

/-- handlers.ts `handleCheckConflicts`, reduced to the groups it reports:
re-filter each conflict group through the staleness validator and keep the
files that retain more than one valid edit. -/
def handleCheckConflicts (tl : List Event) (project_path : String)
    (time_window_mins : Nat) (files : Option (List String)) (now : Nat)
    (fsread : String → Option String) : List (JsVal × List Event) :=
  (getConflicts tl project_path time_window_mins files now).foldr
    (fun g acc =>
      let validEvents := filterStaleFileEdits g.2 project_path fsread
      if validEvents.length > 1 then (g.1, validEvents) :: acc else acc)
    []

/-- Result signal of the knowledge-save handler. -/
inductive SaveResult where
  | ok (id : Nat)
  | duplicate
  | titleTooLong
deriving DecidableEq, Repr

/-- Modelled from the spec: the handler `handleSaveKnowledge` is not among
the sources (only its tests and the db functions it calls are).  Per the
spec it rejects a title over 200 characters with a descriptive error before
any write, then rejects an existing `(project_path, knowledge_type, title)`
triple with an explicit duplicate signal (the check-then-insert through
`knowledgeObjectExists`), and otherwise inserts through
`createKnowledgeObject` and reports success with the new id. -/
def handleSaveKnowledge (kb : List KnowledgeObject) (project_path : String)
    (knowledge_type : KnowledgeType) (title content : String)
    (source_event_id : Option Nat) (confidence : ℚ) (now : Nat) :
    List KnowledgeObject × SaveResult :=
  if title.data.length > 200 then (kb, .titleTooLong)
  else if knowledgeObjectExists kb project_path knowledge_type title then (kb, .duplicate)
  else
    let r := createKnowledgeObject kb project_path knowledge_type title content
      source_event_id confidence now
    (r.1, .ok r.2)

/-! ## Specification-side definitions

These definitions transcribe the spec's own wording (not the source) where a
claim is compared against the code: the claimed ranking score and the claimed
staleness threshold / match rule. -/

/-- The spec's intent boost table applied to a result item: `+2.0` for the
intent's first preferred type, `+1.5` for the second. -/
def claimTypeBoost (intent : SearchIntent) (t : KnowledgeType) : ℚ :=
  match (INTENT_TYPE_PRIORITY intent).findIdx? (fun x => x == t) with
  | some 0 => mkRat 2 1
  | some 1 => mkRat 3 2
  | _ => mkRat 0 1

/-- The score of a returned search item as the claim describes it:
confidence, plus the intent type boost, plus `0.5` when a query is given and
the lower-cased title contains the lower-cased (untokenized, untrimmed)
query. -/
def claimScore (intent : SearchIntent) (query : Option String) (r : KSearchResult) : ℚ :=
  qAdd (qAdd r.confidence (claimTypeBoost intent r.type))
    (match query with
      | none => mkRat 0 1
      | some q => if sContains (lowerStr r.summary) (lowerStr q) then mkRat 1 2 else mkRat 0 1)

/-- The staleness threshold as the claim states it: `⌈0.6 × total⌉`. -/
def claimThreshold (n : Nat) : Nat := ⌈(3 * n : ℚ) / 5⌉₊

/-- The fuzzy line match as the claim states it (exact trimmed equality or
containment in either direction), with no special case for empty lines. -/
def claimLineMatches (normalizedLines : List String) (patchLine : String) : Bool :=
  normalizedLines.contains patchLine ||
    normalizedLines.any (fun n => sContains n patchLine || sContains patchLine n)

/-- The spec's knowledge-store invariant: no two stored objects share
`(project_path, knowledge_type, title)`. -/
def NoDupTriples (kb : List KnowledgeObject) : Prop :=
  kb.Pairwise (fun o1 o2 => ¬(o1.project_path = o2.project_path ∧
    o1.knowledge_type = o2.knowledge_type ∧ o1.title = o2.title))

/-! ## Concrete scenarios used by the per-claim theorems -/

/-- Log content with a long string field, a diff, and a non-string field. -/
def c9content : List (String × JsVal) :=
  [("description", .vstr "refactor everything"),
   ("diff", .vstr "+ a very long diff body"),
   ("count", .vother true 7)]

/-- An old file edit by agent a (before the isolation boundary). -/
def c1edit1 : Event :=
  ⟨1, "agent-a", "file_edit", .obj [("file_path", .vstr "/f.ts")], 100, "p",
    false, none, none, false⟩

/-- The isolation boundary (a `session_start` with `isolated = 1`). -/
def c1marker : Event :=
  ⟨2, "agent-b", "session_start", .obj [], 200, "p", true, none, none, false⟩

/-- A later file edit by agent b. -/
def c1edit2 : Event :=
  ⟨3, "agent-b", "file_edit", .obj [("file_path", .vstr "/f.ts")], 300, "p",
    false, none, none, false⟩

/-- Timeline with an isolation boundary between two conflicting edits. -/
def c1timeline : List Event := [c1edit1, c1marker, c1edit2]

/-- Timeline holding one event tagged `urgent`, stored by `addEvent`. -/
def c2timeline : List Event :=
  (addEvent [] "agent-a" "decision" (.obj []) "p" false none ["urgent"] 100).1

/-- File system with one file whose content is the spec's example line. -/
def c3fs : String → Option String :=
  fun p => if p = "/f.ts" then some "console.log('current');" else none

/-- A first event for the delta-query scenario. -/
def c4e1 : Event := ⟨1, "agent-a", "decision", .obj [], 100, "p", false, none, none, false⟩

/-- A second, later event for the delta-query scenario. -/
def c4e2 : Event := ⟨2, "agent-b", "decision", .obj [], 200, "p", false, none, none, false⟩

/-- Two-event timeline for the delta-query scenario. -/
def c4timeline : List Event := [c4e1, c4e2]

/-- First (valid) edit of file f by agent a, diff `+ alpha`. -/
def c5a1 : Event :=
  ⟨1, "agent-a", "file_edit", .obj [("file_path", .vstr "/f.ts"), ("diff", .vstr "+ alpha")],
    100, "p", false, none, none, false⟩

/-- Second (valid) edit of file f by agent a. -/
def c5a2 : Event :=
  ⟨2, "agent-a", "file_edit", .obj [("file_path", .vstr "/f.ts"), ("diff", .vstr "+ alpha")],
    200, "p", false, none, none, false⟩

/-- A stale edit of file f by agent b, diff `+ beta` (not in the file). -/
def c5b : Event :=
  ⟨3, "agent-b", "file_edit", .obj [("file_path", .vstr "/f.ts"), ("diff", .vstr "+ beta")],
    300, "p", false, none, none, false⟩

/-- Timeline where two agents touched f but only agent a's edits are live. -/
def c5timeline : List Event := [c5a1, c5a2, c5b]

/-- File system where f currently contains only `alpha`. -/
def c5fs : String → Option String := fun p => if p = "/f.ts" then some "alpha" else none

/-- Knowledge object whose title contains a space. -/
def c6obj1 : KnowledgeObject := ⟨1, "p", .decision, "a b", "", none, mkRat 1 2, 10⟩

/-- Knowledge object with a higher confidence and no space in the title. -/
def c6obj2 : KnowledgeObject := ⟨2, "p", .decision, "xy", "", none, mkRat 3 5, 20⟩

/-- File system used by the staleness-threshold scenario: one line `x`. -/
def c7fs : String → Option String := fun p => if p = "/f.ts" then some "x" else none

/-- A non-rejected file edit whose diff no longer matches the file. -/
def c10edit : Event :=
  ⟨1, "agent-a", "file_edit", .obj [("file_path", .vstr "/f.ts"), ("diff", .vstr "+ beta")],
    100, "p", false, none, none, false⟩

/-- A rejected event that is not a file edit (kept by the filter). -/
def c10decision : Event :=
  ⟨2, "agent-a", "decision", .obj [], 200, "p", false, none, none, true⟩

/-- A rejected file edit (dropped by the filter). -/
def c10rejected : Event :=
  ⟨3, "agent-a", "file_edit", .obj [("file_path", .vstr "/f.ts")], 300, "p",
    false, none, none, true⟩

/-- A file edit carrying no diff (always kept). -/
def c10nodiff : Event :=
  ⟨4, "agent-a", "file_edit", .obj [("file_path", .vstr "/f.ts")], 400, "p",
    false, none, none, false⟩

/-- Mixed event list for the stale-filter scenario. -/
def c10events : List Event := [c10decision, c10rejected, c10nodiff]

/-! ## Infrastructure lemmas: the insertion sort -/

theorem perm_insSorted (le : α → α → Bool) (x : α) (l : List α) :
    List.Perm (insSorted le x l) (x :: l) := by
  induction l with
  | nil => exact List.Perm.refl _
  | cons y t ih =>
    by_cases h : le x y = true
    · simp [insSorted, h]
    · simp only [insSorted, h, Bool.false_eq_true, if_false]
      exact (ih.cons y).trans (List.Perm.swap x y t)

theorem perm_sortByB (le : α → α → Bool) (l : List α) : List.Perm (sortByB le l) l := by
  induction l with
  | nil => exact List.Perm.refl _
  | cons x t ih => exact (perm_insSorted le x (sortByB le t)).trans (ih.cons x)

theorem mem_sortByB {le : α → α → Bool} {l : List α} {a : α} :
    a ∈ sortByB le l ↔ a ∈ l := (perm_sortByB le l).mem_iff

theorem pairwise_insSorted {le : α → α → Bool}
    (htot : ∀ a b, le a b = true ∨ le b a = true)
    (htr : ∀ a b c, le a b = true → le b c = true → le a c = true)
    {x : α} {l : List α} (hl : l.Pairwise (fun a b => le a b = true)) :
    (insSorted le x l).Pairwise (fun a b => le a b = true) := by
  induction l with
  | nil => simp [insSorted]
  | cons y t ih =>
    rcases List.pairwise_cons.mp hl with ⟨hy, ht⟩
    by_cases h : le x y = true
    · simp only [insSorted, h, if_true]
      refine List.pairwise_cons.mpr ⟨?_, hl⟩
      intro b hb
      rcases List.mem_cons.mp hb with rfl | hb
      · exact h
      · exact htr _ _ _ h (hy b hb)
    · have hyx : le y x = true := (htot x y).resolve_left h
      simp only [insSorted, h, Bool.false_eq_true, if_false]
      refine List.pairwise_cons.mpr ⟨?_, ih ht⟩
      intro b hb
      rcases List.mem_cons.mp ((perm_insSorted le x t).mem_iff.mp hb) with rfl | hb
      · exact hyx
      · exact hy b hb

theorem pairwise_sortByB {le : α → α → Bool}
    (htot : ∀ a b, le a b = true ∨ le b a = true)
    (htr : ∀ a b c, le a b = true → le b c = true → le a c = true)
    (l : List α) : (sortByB le l).Pairwise (fun a b => le a b = true) := by
  induction l with
  | nil => simp [sortByB]
  | cons x t ih => exact pairwise_insSorted htot htr ih

theorem mem_query_events {le : α → α → Bool} {l : List α} {limit : Nat} {a : α}
    (h : a ∈ (((sortByB le l).take limit).reverse)) : a ∈ l :=
  mem_sortByB.mp (List.take_subset _ _ (List.mem_reverse.mp h))

theorem mem_query_events_of_small {le : α → α → Bool} {l : List α} {limit : Nat} {a : α}
    (ha : a ∈ l) (hlen : l.length ≤ limit) :
    a ∈ (((sortByB le l).take limit).reverse) := by
  rw [List.mem_reverse,
    List.take_of_length_le (((perm_sortByB le l).length_eq).le.trans hlen)]
  exact mem_sortByB.mpr ha

/-! ## Infrastructure lemmas: the isolation subquery -/

theorem pickMaxTs_eq_none {l : List Event} : pickMaxTs l = none ↔ l = [] := by
  cases l with
  | nil => simp [pickMaxTs]
  | cons e t =>
    simp only [pickMaxTs]
    cases pickMaxTs t with
    | none => simp [pickStep]
    | some m =>
      by_cases h : m.timestamp > e.timestamp <;> simp [pickStep, h]

theorem pickMaxTs_mem {l : List Event} {m : Event} (h : pickMaxTs l = some m) : m ∈ l := by
  induction l generalizing m with
  | nil => simp [pickMaxTs] at h
  | cons e t ih =>
    simp only [pickMaxTs] at h
    cases hm : pickMaxTs t with
    | none =>
      rw [hm] at h
      simp only [pickStep, Option.some.injEq] at h
      subst h
      exact List.mem_cons_self _ _
    | some m' =>
      rw [hm] at h
      simp only [pickStep] at h
      by_cases hts : m'.timestamp > e.timestamp
      · rw [if_pos hts] at h
        simp only [Option.some.injEq] at h
        subst h
        exact List.mem_cons_of_mem e (ih hm)
      · rw [if_neg hts] at h
        simp only [Option.some.injEq] at h
        subst h
        exact List.mem_cons_self _ _

theorem pickMaxTs_ge {l : List Event} {m : Event} (h : pickMaxTs l = some m) :
    ∀ x ∈ l, x.timestamp ≤ m.timestamp := by
  induction l generalizing m with
  | nil => simp [pickMaxTs] at h
  | cons e t ih =>
    intro x hx
    simp only [pickMaxTs] at h
    cases hm : pickMaxTs t with
    | none =>
      rw [hm] at h
      simp only [pickStep, Option.some.injEq] at h
      subst h
      rcases List.mem_cons.mp hx with rfl | hx
      · exact le_refl _
      · exact absurd (pickMaxTs_eq_none.mp hm ▸ hx) (List.not_mem_nil x)
    | some m' =>
      rw [hm] at h
      simp only [pickStep] at h
      by_cases hts : m'.timestamp > e.timestamp
      · rw [if_pos hts] at h
        simp only [Option.some.injEq] at h
        subst h
        rcases List.mem_cons.mp hx with rfl | hx
        · exact le_of_lt hts
        · exact ih hm x hx
      · rw [if_neg hts] at h
        simp only [Option.some.injEq] at h
        subst h
        rcases List.mem_cons.mp hx with rfl | hx
        · exact le_refl _
        · exact (ih hm x hx).trans (not_lt.mp hts)

/-! ## Infrastructure lemmas: line splitting and joining -/

theorem string_data_append (a b : String) : (a ++ b).data = a.data ++ b.data := rfl

theorem splitLines_ne_nil (cs : List Char) : splitLines cs ≠ [] := by
  cases cs with
  | nil => simp [splitLines]
  | cons c t =>
    simp only [splitLines]
    by_cases h : c = '\n'
    · simp [h]
    · simp only [h, if_false]
      cases splitLines t <;> simp

theorem splitLines_no_nl (cs : List Char) : ∀ l ∈ splitLines cs, '\n' ∉ l := by
  induction cs with
  | nil => simp [splitLines]
  | cons c t ih =>
    intro l hl
    simp only [splitLines] at hl
    by_cases h : c = '\n'
    · rw [h] at hl
      simp only [if_true] at hl
      rcases List.mem_cons.mp hl with rfl | hl
      · simp
      · exact ih l hl
    · simp only [h, if_false] at hl
      cases hsl : splitLines t with
      | nil => exact absurd hsl (splitLines_ne_nil t)
      | cons h0 r =>
        rw [hsl] at hl
        rcases List.mem_cons.mp hl with rfl | hl
        · intro hmem
          rcases List.mem_cons.mp hmem with rfl | hmem
          · exact h rfl
          · exact ih h0 (hsl ▸ List.mem_cons_self h0 r) hmem
        · exact ih l (hsl ▸ List.mem_cons_of_mem h0 hl)

theorem splitLines_of_no_nl {cs : List Char} (h : '\n' ∉ cs) : splitLines cs = [cs] := by
  induction cs with
  | nil => rfl
  | cons c t ih =>
    have hc : c ≠ '\n' := fun hc => h (hc ▸ List.mem_cons_self c t)
    have ht : '\n' ∉ t := fun ht => h (List.mem_cons_of_mem c ht)
    simp [splitLines, hc, ih ht]

theorem splitLines_append_nl {cs : List Char} (rest : List Char) (h : '\n' ∉ cs) :
    splitLines (cs ++ '\n' :: rest) = cs :: splitLines rest := by
  induction cs with
  | nil => simp [splitLines]
  | cons c t ih =>
    have hc : c ≠ '\n' := fun hc => h (hc ▸ List.mem_cons_self c t)
    have ht : '\n' ∉ t := fun hmem => h (List.mem_cons_of_mem c hmem)
    simp only [List.cons_append, splitLines, hc, if_false]
    rw [show t.append ('\n' :: rest) = t ++ '\n' :: rest from rfl, ih ht]

theorem splitNl_joinNl {L : List String} (hne : L ≠ [])
    (hnl : ∀ s ∈ L, '\n' ∉ s.data) : splitNl (joinNl L) = L := by
  induction L with
  | nil => exact absurd rfl hne
  | cons x r ih =>
    cases r with
    | nil =>
      simp only [joinNl, splitNl]
      rw [splitLines_of_no_nl (hnl x (List.mem_cons_self x []))]
      simp
    | cons y s =>
      have hx : '\n' ∉ x.data := hnl x (List.mem_cons_self _ _)
      have hr : ∀ t ∈ y :: s, '\n' ∉ t.data := fun t ht => hnl t (List.mem_cons_of_mem x ht)
      have hnl1 : ("\n" : String).data = ['\n'] := by decide
      have hjoin : (x ++ "\n" ++ joinNl (y :: s)).data
          = x.data ++ '\n' :: (joinNl (y :: s)).data := by
        rw [string_data_append, string_data_append, hnl1, List.append_assoc,
          List.singleton_append]
      simp only [joinNl, splitNl, hjoin]
      rw [splitLines_append_nl _ hx]
      have := ih (by simp) hr
      simp only [splitNl] at this
      simp [this]

/-! ## Infrastructure lemmas: decimal printing and parsing -/

theorem digitCh_isDigit {n : Nat} (h : n < 10) : (digitCh n).isDigit = true := by
  interval_cases n <;> decide

theorem digitVal_digitCh {n : Nat} (h : n < 10) : digitVal (digitCh n) = n := by
  interval_cases n <;> decide

theorem decAux_ne_nil {fuel n : Nat} (h : n < fuel) : decAux fuel n ≠ [] := by
  cases fuel with
  | zero => omega
  | succ f =>
    simp only [decAux]
    by_cases h10 : n < 10 <;> simp [h10]

theorem decAux_digits {fuel n : Nat} (h : n < fuel) :
    ∀ c ∈ decAux fuel n, c.isDigit = true := by
  induction fuel generalizing n with
  | zero => omega
  | succ f ih =>
    intro c hc
    simp only [decAux] at hc
    by_cases h10 : n < 10
    · simp only [h10, if_true, List.mem_singleton] at hc
      exact hc ▸ digitCh_isDigit h10
    · simp only [h10, if_false, List.mem_append, List.mem_singleton] at hc
      rcases hc with hc | hc
      · exact ih (by omega : n / 10 < f) c hc
      · exact hc ▸ digitCh_isDigit (Nat.mod_lt n (by omega))

theorem decAux_foldl {fuel n : Nat} (h : n < fuel) (a : Nat) :
    (decAux fuel n).foldl (fun a c => 10 * a + digitVal c) a
      = a * 10 ^ (decAux fuel n).length + n := by
  induction fuel generalizing n a with
  | zero => omega
  | succ f ih =>
    simp only [decAux]
    by_cases h10 : n < 10
    · simp [h10, List.foldl, digitVal_digitCh h10]
      ring
    · simp only [h10, if_false, List.foldl_append, List.length_append,
        List.foldl_cons, List.foldl_nil, List.length_singleton]
      rw [ih (by omega : n / 10 < f) a, digitVal_digitCh (Nat.mod_lt n (by omega))]
      rw [pow_succ]
      have := Nat.div_add_mod n 10
      ring_nf
      omega

theorem chPre_append (p x : List Char) : chPre p (p ++ x) = true := by
  induction p with
  | nil => rfl
  | cons c t ih => simp [chPre, ih]

theorem takeWhile_all {p : Char → Bool} {l : List Char} (h : ∀ c ∈ l, p c = true) :
    l.takeWhile p = l := by
  induction l with
  | nil => rfl
  | cons c t ih =>
    rw [List.takeWhile_cons, h c (List.mem_cons_self c t),
      ih (fun x hx => h x (List.mem_cons_of_mem c hx))]
    simp

/-- The cursor string `getRecentEvents` emits for an event round-trips
through the cursor parser back to the event's id. -/
theorem parseCursor_evt (n : Nat) : parseCursor ("evt_" ++ natToDec n) = some n := by
  have hdata : ("evt_" ++ natToDec n).data = "evt_".data ++ decAux (n + 1) n :=
    string_data_append _ _
  have hlt : n < n + 1 := Nat.lt_succ_self n
  have hrem : removeOnce ("evt_".data ++ decAux (n + 1) n) "evt_".data
      = decAux (n + 1) n := by
    cases hd : decAux (n + 1) n with
    | nil => exact absurd hd (decAux_ne_nil hlt)
    | cons c t =>
      show removeOnce ('e' :: 'v' :: 't' :: '_' :: c :: t) "evt_".data = c :: t
      simp only [removeOnce]
      rw [if_pos]
      · rfl
      · exact chPre_append "evt_".data (c :: t)
  simp only [parseCursor, replaceOnce, jsParseIntNat, hdata, hrem]
  rw [takeWhile_all (decAux_digits hlt)]
  simp only [List.isEmpty_iff]
  rw [if_neg (decAux_ne_nil hlt)]
  rw [decAux_foldl hlt 0]
  simp

/-! ## Infrastructure lemmas: rational score arithmetic -/

theorem qAdd_eq (a b : ℚ) : qAdd a b = a + b := by
  have had : (a.den : ℤ) ≠ 0 := Int.natCast_ne_zero.mpr a.den_nz
  have hbd : (b.den : ℤ) ≠ 0 := Int.natCast_ne_zero.mpr b.den_nz
  rw [qAdd, Rat.mkRat_eq_divInt]
  push_cast
  rw [← Rat.divInt_add_divInt _ _ had hbd, Rat.num_divInt_den, Rat.num_divInt_den]

/-- The exact value of `Math.ceil(n * 0.6)` (which the IEEE-double
computation in the source agrees with for every list length), compared with
the natural-division form used in `validationThreshold`. -/
theorem ceil_three_fifths (n : Nat) : ⌈(3 * n : ℚ) / 5⌉₊ = (3 * n + 4) / 5 := by
  rcases Nat.eq_zero_or_pos n with h0 | h0
  · subst h0; norm_num
  have hm : 1 ≤ (3 * n + 4) / 5 := by omega
  rw [Nat.ceil_eq_iff (by omega)]
  constructor
  · rw [Nat.cast_sub hm, lt_div_iff₀ (by norm_num : (0:ℚ) < 5)]
    have h : (3 * n + 4) / 5 * 5 < 3 * n + 5 := by omega
    have h' : (((3 * n + 4) / 5 : ℕ) : ℚ) * 5 < 3 * n + 5 := by exact_mod_cast h
    push_cast
    linarith
  · rw [div_le_iff₀ (by norm_num : (0:ℚ) < 5)]
    have h : 3 * n ≤ (3 * n + 4) / 5 * 5 := by omega
    exact_mod_cast h

/-! ## Infrastructure lemmas: the query predicate -/

theorem passesFilters_iso_le {tl : List Event} {project : String}
    {sc : Option String} {ats tgs : Option (List String)} {e iso : Event}
    (h : passesFilters tl project sc ats tgs e = true)
    (hiso : latestIsolation tl project = some iso) : iso.id ≤ e.id := by
  simp only [passesFilters, Bool.and_eq_true] at h
  have h5 := h.2
  rw [hiso] at h5
  exact of_decide_eq_true h5

theorem passesFilters_cursor_lt {tl : List Event} {project : String}
    {ats tgs : Option (List String)} {e : Event} {c : String} {cid : Nat}
    (h : passesFilters tl project (some c) ats tgs e = true)
    (hne : (c == "") = false) (hp : parseCursor c = some cid) : cid < e.id := by
  simp only [passesFilters, Bool.and_eq_true] at h
  have h2 := h.1.1.1.2
  rw [hne] at h2
  simp only [Bool.false_eq_true, if_false] at h2
  rw [hp] at h2
  exact of_decide_eq_true h2

theorem evt_cursor_ne_empty (n : Nat) : (("evt_" ++ natToDec n) == "") = false := by
  apply beq_eq_false_iff_ne.mpr
  intro heq
  have : ("evt_" ++ natToDec n).data = ("" : String).data := congrArg String.data heq
  rw [string_data_append] at this
  simp at this

/-! ## Infrastructure lemmas: the staleness validator -/

theorem validatePatch_some_eval {fp pp : String} {fs : String → Option String}
    {p content : String} (hp : (p == "") = false)
    (hfs : fs (resolvePath fp pp) = some content) :
    validatePatch fp (some p) pp fs =
      (if removedStillPresent content (splitNl p) then false
       else if (addedContents (splitNl p)).isEmpty then true
       else decide (validationThreshold (addedContents (splitNl p)).length ≤
         (addedContents (splitNl p)).countP
           (fun l => lineMatches ((splitNl content).map jsTrim) l))) := by
  simp only [validatePatch, hp, Bool.false_eq_true, if_false]
  rw [hfs]

theorem splitNl_no_nl (d : String) : ∀ s ∈ splitNl d, '\n' ∉ s.data := by
  intro s hs
  simp only [splitNl, List.mem_map] at hs
  obtain ⟨li, hli, heq⟩ := hs
  have : s.data = li := by rw [← heq]
  rw [this]
  exact splitLines_no_nl d.data li hli

theorem beq_empty_eq_false {x : String} (h : x.data ≠ []) : (x == "") = false := by
  apply beq_eq_false_iff_ne.mpr
  intro heq
  exact h (congrArg String.data heq)

theorem sStarts_data_ne_nil {s p : String} (hp : p.data ≠ []) (h : sStarts s p = true) :
    s.data ≠ [] := by
  intro hd
  rw [sStarts, hd] at h
  cases hpd : p.data with
  | nil => exact hp hpd
  | cons c cs => rw [hpd] at h; exact absurd h (by simp [chPre])

theorem kept_line_ne_nil {s : String} (h : (isAdd s || isRem s || isCtx s) = true) :
    s.data ≠ [] := by
  rcases Bool.or_eq_true_iff.mp h with h12 | h4
  · rcases Bool.or_eq_true_iff.mp h12 with h1 | h3
    · rw [isAdd, Bool.and_eq_true] at h1
      exact sStarts_data_ne_nil (p := "+") (by decide) h1.1
    · rw [isRem, Bool.and_eq_true] at h3
      exact sStarts_data_ne_nil (p := "-") (by decide) h3.1
  · rw [isCtx] at h4
    exact sStarts_data_ne_nil (p := " ") (by decide) h4

theorem joinNl_cons_ne_empty {x : String} {r : List String} (hx : x.data ≠ []) :
    ((joinNl (x :: r)) == "") = false := by
  apply beq_empty_eq_false
  cases r with
  | nil => exact hx
  | cons y s =>
    have hnl1 : ("\n" : String).data = ['\n'] := by decide
    show (x ++ "\n" ++ joinNl (y :: s)).data ≠ []
    rw [string_data_append, string_data_append, hnl1]
    simp

/-- Characterisation of when the stale filter drops an event: it must be a
`file_edit`, and either its `rejected` flag is set, or its payload parses to
an object with a non-empty string `file_path` and a non-empty string `diff`
whose extracted patch fails validation against the current file. -/
theorem keepEvent_eq_false_iff (pp : String) (fs : String → Option String) (e : Event) :
    keepEvent pp fs e = false ↔
      e.action = "file_edit" ∧
        (e.rejected = true ∨
          ∃ fields s d, e.payload = .obj fields ∧
            fields.lookup "file_path" = some (.vstr s) ∧ s ≠ "" ∧
            fields.lookup "diff" = some (.vstr d) ∧ d ≠ "" ∧
            validatePatch s (extractPatch (some d)) pp fs = false) := by
  by_cases hact : e.action = "file_edit"
  · have hbne : (e.action != "file_edit") = false := by simp [hact]
    rw [keepEvent, hbne]
    simp only [Bool.false_eq_true, if_false]
    by_cases hrej : e.rejected = true
    · simp [hrej, hact]
    · have hrej' : e.rejected = false := by simpa using hrej
      rw [hrej']
      simp only [Bool.false_eq_true, if_false]
      cases hp : e.payload with
      | malformed => simp [hact, hrej', hp]
      | obj fields =>
        cases hfp : fields.lookup "file_path" with
        | none => simp [hact, hrej', hp, hfp]
        | some fp =>
          simp only [hfp]
          by_cases hfl : fp.falsy = true
          · rw [if_pos hfl]
            simp only [Bool.true_eq_false, false_iff]
            rintro ⟨-, h | ⟨fields', s, d, hps, hfps, hs, -⟩⟩
            · simp [hrej'] at h
            · injection hps with hfe
              subst hfe
              have hv := hfp.symm.trans hfps
              injection hv with hv
              subst hv
              simp [JsVal.falsy, hs] at hfl
          · rw [if_neg hfl]
            cases fp with
            | vother t g => simp [hact, hrej', hp, hfp]
            | vstr s =>
              have hs : s ≠ "" := by
                intro hse
                exact hfl (by simp [JsVal.falsy, hse])
              cases hdv : fields.lookup "diff" with
              | none => simp [hact, hrej', hp, hfp, hdv]
              | some dv =>
                simp only [hdv]
                by_cases hdfl : dv.falsy = true
                · rw [if_pos hdfl]
                  simp only [Bool.true_eq_false, false_iff]
                  rintro ⟨-, h | ⟨fields', s', d, hps, hfps, -, hdvs, hd, -⟩⟩
                  · simp [hrej'] at h
                  · injection hps with hfe
                    subst hfe
                    have hv := hdv.symm.trans hdvs
                    injection hv with hv
                    subst hv
                    simp [JsVal.falsy, hd] at hdfl
                · rw [if_neg hdfl]
                  cases dv with
                  | vother t g => simp [hact, hrej', hp, hfp, hdv]
                  | vstr d =>
                    have hd : d ≠ "" := by
                      intro hde
                      exact hdfl (by simp [JsVal.falsy, hde])
                    constructor
                    · intro hval
                      have hval' : validatePatch s (extractPatch (some d)) pp fs
                          = false := hval
                      exact ⟨hact, Or.inr ⟨fields, s, d, rfl, hfp, hs, hdv, hd, hval'⟩⟩
                    · rintro ⟨-, h | ⟨fields', s', d', hps, hfps, -, hdvs, -, hval⟩⟩
                      · simp [hrej'] at h
                      · injection hps with hfe
                        subst hfe
                        have hv1 := hfp.symm.trans hfps
                        injection hv1 with hv1
                        injection hv1 with hv1
                        have hv2 := hdv.symm.trans hdvs
                        injection hv2 with hv2
                        injection hv2 with hv2
                        show validatePatch s (extractPatch (some d)) pp fs = false
                        rw [hv1, hv2]
                        exact hval
  · have hbne : (e.action != "file_edit") = true := by simp [hact]
    rw [keepEvent, hbne]
    simp [hact]

/-! ## Infrastructure lemmas: conflict grouping -/

theorem mem_insertGroup {acc : List (JsVal × List Event)} {k : JsVal} {ev : Event} :
    ∀ g ∈ insertGroup acc k ev, ∀ e ∈ g.2, (∃ g' ∈ acc, e ∈ g'.2) ∨ e = ev := by
  induction acc with
  | nil =>
    intro g hg e he
    simp only [insertGroup, List.mem_singleton] at hg
    subst hg
    simp only [List.mem_singleton] at he
    exact Or.inr he
  | cons h t ih =>
    intro g hg e he
    simp only [insertGroup] at hg
    by_cases hk : h.1 = k
    · rw [if_pos hk] at hg
      rcases List.mem_cons.mp hg with rfl | hg
      · rcases List.mem_append.mp he with he | he
        · exact Or.inl ⟨h, List.mem_cons_self h t, he⟩
        · simp only [List.mem_singleton] at he
          exact Or.inr he
      · exact Or.inl ⟨g, List.mem_cons_of_mem h hg, he⟩
    · rw [if_neg hk] at hg
      rcases List.mem_cons.mp hg with rfl | hg
      · exact Or.inl ⟨h, List.mem_cons_self h t, he⟩
      · rcases ih g hg e he with ⟨g', hg', he'⟩ | he'
        · exact Or.inl ⟨g', List.mem_cons_of_mem h hg', he'⟩
        · exact Or.inr he'

theorem conflictStep_mem {files : Option (List String)}
    {acc : List (JsVal × List Event)} {ev : Event} :
    ∀ g ∈ conflictStep files acc ev, ∀ e ∈ g.2, (∃ g' ∈ acc, e ∈ g'.2) ∨ e = ev := by
  intro g hg e he
  cases hp : ev.payload with
  | malformed =>
    rw [conflictStep, hp] at hg
    exact Or.inl ⟨g, hg, he⟩
  | obj fields =>
    rw [conflictStep, hp] at hg
    cases hfp : fields.lookup "file_path" with
    | none =>
      simp only [hfp] at hg
      exact Or.inl ⟨g, hg, he⟩
    | some fp =>
      simp only [hfp] at hg
      by_cases hfl : fp.falsy = true
      · rw [if_pos hfl] at hg
        exact Or.inl ⟨g, hg, he⟩
      · rw [if_neg hfl] at hg
        cases files with
        | none => exact mem_insertGroup g hg e he
        | some fl =>
          cases fp with
          | vstr s =>
            by_cases hfs : fl.any (fun f => sContains s f) = true
            · simp only [hfs] at hg
              rw [if_pos trivial] at hg
              exact mem_insertGroup g hg e he
            · simp only [Bool.eq_false_iff.mpr hfs] at hg
              rw [if_neg (by simp)] at hg
              exact Or.inl ⟨g, hg, he⟩
          | vother t tag => exact Or.inl ⟨g, hg, he⟩

theorem foldl_conflictStep_mem {files : Option (List String)} (rows : List Event)
    (P : Event → Prop) :
    ∀ (acc : List (JsVal × List Event)),
      (∀ g ∈ acc, ∀ e ∈ g.2, P e) → (∀ e ∈ rows, P e) →
      ∀ g ∈ rows.foldl (conflictStep files) acc, ∀ e ∈ g.2, P e := by
  induction rows with
  | nil => intro acc hacc _ g hg e he; exact hacc g hg e he
  | cons r rt ih =>
    intro acc hacc hrows g hg e he
    refine ih (conflictStep files acc r) ?_
      (fun e' he' => hrows e' (List.mem_cons_of_mem r he')) g hg e he
    intro g' hg' e' he'
    rcases conflictStep_mem g' hg' e' he' with ⟨g'', hg'', he''⟩ | rfl
    · exact hacc g'' hg'' e' he''
    · exact hrows e' (List.mem_cons_self _ _)

theorem getConflicts_event_prop (tl : List Event) (project : String)
    (time_window_mins : Nat) (files : Option (List String)) (now : Nat) :
    ∀ g ∈ getConflicts tl project time_window_mins files now, ∀ e ∈ g.2,
      e ∈ tl ∧ e.project_path = project ∧ e.action = "file_edit" ∧
        now - time_window_mins * 60 * 1000 < e.timestamp := by
  intro g hg e he
  have hg' := List.mem_filter.mp hg
  refine foldl_conflictStep_mem _
    (fun e => e ∈ tl ∧ e.project_path = project ∧ e.action = "file_edit" ∧
      now - time_window_mins * 60 * 1000 < e.timestamp)
    [] (by simp) ?_ g hg'.1 e he
  intro e' he'
  have := List.mem_filter.mp (mem_sortByB.mp he')
  refine ⟨this.1, ?_⟩
  have h2 := this.2
  simp only [Bool.and_eq_true, beq_iff_eq, decide_eq_true_eq] at h2
  exact ⟨h2.1.1, h2.2, h2.1.2⟩

theorem dedup_length_le_one {l : List String} {a : String} (h : ∀ x ∈ l, x = a) :
    l.dedup.length ≤ 1 := by
  cases hd : l.dedup with
  | nil => simp
  | cons x t =>
    cases ht : t with
    | nil => simp
    | cons y u =>
      exfalso
      have hnd := List.nodup_dedup l
      rw [hd, ht] at hnd
      have hx : x = a := h x (List.mem_dedup.mp (hd ▸ List.mem_cons_self _ _))
      have hy : y = a := h y (List.mem_dedup.mp (hd ▸ ht ▸
        List.mem_cons_of_mem x (List.mem_cons_self y u)))
      rcases List.pairwise_cons.mp hnd with ⟨hxy, -⟩
      exact hxy y (List.mem_cons_self y u) (hx.trans hy.symm)

theorem mem_handleCheckConflicts {tl : List Event} {project : String}
    {time_window_mins : Nat} {files : Option (List String)} {now : Nat}
    {fs : String → Option String} {entry : JsVal × List Event} :
    entry ∈ handleCheckConflicts tl project time_window_mins files now fs ↔
      ∃ g ∈ getConflicts tl project time_window_mins files now,
        entry = (g.1, filterStaleFileEdits g.2 project fs) ∧
        1 < (filterStaleFileEdits g.2 project fs).length := by
  rw [handleCheckConflicts]
  induction getConflicts tl project time_window_mins files now with
  | nil => simp
  | cons g t ih =>
    simp only [List.foldr_cons]
    by_cases hlen : (filterStaleFileEdits g.2 project fs).length > 1
    · simp only [hlen, if_pos, decide_eq_true_eq]
      constructor
      · intro h
        rcases List.mem_cons.mp h with rfl | h
        · exact ⟨g, List.mem_cons_self g t, rfl, hlen⟩
        · rcases ih.mp h with ⟨g', hg', he, hl⟩
          exact ⟨g', List.mem_cons_of_mem g hg', he, hl⟩
      · rintro ⟨g', hg', rfl, hl⟩
        rcases List.mem_cons.mp hg' with rfl | hg'
        · exact List.mem_cons_self _ _
        · exact List.mem_cons_of_mem _ (ih.mpr ⟨g', hg', rfl, hl⟩)
    · simp only [hlen, if_neg, decide_eq_true_eq]
      constructor
      · intro h
        rcases ih.mp h with ⟨g', hg', he, hl⟩
        exact ⟨g', List.mem_cons_of_mem g hg', he, hl⟩
      · rintro ⟨g', hg', rfl, hl⟩
        rcases List.mem_cons.mp hg' with rfl | hg'
        · exact absurd hl hlen
        · exact ih.mpr ⟨g', hg', rfl, hl⟩

/-! ## Infrastructure lemmas: the search comparator -/

theorem scoreCmp_iff {intent : SearchIntent} {query : Option String}
    {a b : KnowledgeObject} :
    scoreCmp intent query a b = true ↔
      scoreOf intent query b < scoreOf intent query a ∨
        (scoreOf intent query a = scoreOf intent query b ∧ a.id ≤ b.id) := by
  simp [scoreCmp, Bool.or_eq_true, Bool.and_eq_true, decide_eq_true_eq]

theorem scoreCmp_total (intent : SearchIntent) (query : Option String)
    (a b : KnowledgeObject) :
    scoreCmp intent query a b = true ∨ scoreCmp intent query b a = true := by
  rcases lt_trichotomy (scoreOf intent query a) (scoreOf intent query b) with h | h | h
  · exact Or.inr (scoreCmp_iff.mpr (Or.inl h))
  · rcases Nat.le_total a.id b.id with hid | hid
    · exact Or.inl (scoreCmp_iff.mpr (Or.inr ⟨h, hid⟩))
    · exact Or.inr (scoreCmp_iff.mpr (Or.inr ⟨h.symm, hid⟩))
  · exact Or.inl (scoreCmp_iff.mpr (Or.inl h))

theorem scoreCmp_trans (intent : SearchIntent) (query : Option String)
    (a b c : KnowledgeObject) (hab : scoreCmp intent query a b = true)
    (hbc : scoreCmp intent query b c = true) : scoreCmp intent query a c = true := by
  rcases scoreCmp_iff.mp hab with h1 | ⟨h1, hid1⟩ <;>
    rcases scoreCmp_iff.mp hbc with h2 | ⟨h2, hid2⟩
  · exact scoreCmp_iff.mpr (Or.inl (h2.trans h1))
  · exact scoreCmp_iff.mpr (Or.inl (h2 ▸ h1))
  · exact scoreCmp_iff.mpr (Or.inl (h1 ▸ h2))
  · exact scoreCmp_iff.mpr (Or.inr ⟨h1.trans h2, hid1.trans hid2⟩)

theorem searchScored_ids_nodup (kb : List KnowledgeObject) (project : String)
    (intent : SearchIntent) (query : Option String)
    (hnd : (kb.map KnowledgeObject.id).Nodup) :
    ((searchScored kb project intent query).map KnowledgeObject.id).Nodup := by
  have hmine : ((kb.filter (fun o => o.project_path == project)).map
      KnowledgeObject.id).Nodup :=
    ((List.filter_sublist kb).map KnowledgeObject.id).nodup hnd
  have hpre : ((sortByB confRecencyCmp
      (kb.filter (fun o => o.project_path == project))).map KnowledgeObject.id).Nodup :=
    ((perm_sortByB confRecencyCmp _).map KnowledgeObject.id).symm.nodup hmine
  have hfiltered : ((if queryActive query
      then (sortByB confRecencyCmp
        (kb.filter (fun o => o.project_path == project))).filter
          (matchesQuery (query.getD ""))
      else sortByB confRecencyCmp
        (kb.filter (fun o => o.project_path == project))).map
          KnowledgeObject.id).Nodup := by
    by_cases hq : queryActive query = true
    · rw [if_pos hq]
      exact ((List.filter_sublist _).map KnowledgeObject.id).nodup hpre
    · rw [if_neg hq]
      exact hpre
  have hgoal : searchScored kb project intent query
      = sortByB (scoreCmp intent query)
          (if queryActive query
           then (sortByB confRecencyCmp
             (kb.filter (fun o => o.project_path == project))).filter
               (matchesQuery (query.getD ""))
           else sortByB confRecencyCmp
             (kb.filter (fun o => o.project_path == project))) := rfl
  rw [hgoal]
  exact ((perm_sortByB (scoreCmp intent query) _).map
    KnowledgeObject.id).symm.nodup hfiltered

/-! ## Infrastructure lemmas: content truncation -/

theorem truncateContent_cons (k' : String) (v : JsVal) (t : List (String × JsVal))
    (maxChars : Nat) :
    truncateContent ((k', v) :: t) maxChars
      = (k', match v with
          | .vstr s => if k' != "diff" then .vstr (truncatePayload s maxChars) else .vstr s
          | .vother tt g => .vother tt g) :: truncateContent t maxChars := by
  cases v with
  | vstr s =>
    by_cases hd : (k' != "diff") = true
    · simp only [truncateContent, List.map, hd, if_true]
    · have hd' : (k' != "diff") = false := by simpa using hd
      simp only [truncateContent, List.map, hd', Bool.false_eq_true, if_false]
  | vother tt g => simp [truncateContent]

theorem truncate_lookup_diff {content : List (String × JsVal)} (maxChars : Nat)
    {s : String} (h : content.lookup "diff" = some (.vstr s)) :
    (truncateContent content maxChars).lookup "diff" = some (.vstr s) := by
  induction content with
  | nil => simp [List.lookup] at h
  | cons kv t ih =>
    obtain ⟨k', v⟩ := kv
    rw [List.lookup_cons] at h
    rw [truncateContent_cons, List.lookup_cons]
    cases hbe : (("diff" : String) == k') with
    | true =>
      rw [hbe] at h
      simp only [Option.some.injEq] at h
      subst h
      have hk' : k' = "diff" := (eq_of_beq hbe).symm
      subst hk'
      simp
    | false =>
      rw [hbe] at h
      exact ih h

theorem truncate_lookup_str {content : List (String × JsVal)} (maxChars : Nat)
    {k s : String} (hk : k ≠ "diff") (h : content.lookup k = some (.vstr s)) :
    (truncateContent content maxChars).lookup k
      = some (.vstr (truncatePayload s maxChars)) := by
  induction content with
  | nil => simp [List.lookup] at h
  | cons kv t ih =>
    obtain ⟨k', v⟩ := kv
    rw [List.lookup_cons] at h
    rw [truncateContent_cons, List.lookup_cons]
    cases hbe : (k == k') with
    | true =>
      rw [hbe] at h
      simp only [Option.some.injEq] at h
      subst h
      have hk' : k' ≠ "diff" := fun hd => hk ((eq_of_beq hbe).trans hd)
      have hbd : (k' != "diff") = true := by simp [hk']
      simp [hbd]
    | false =>
      rw [hbe] at h
      exact ih h

theorem truncate_lookup_other {content : List (String × JsVal)} (maxChars : Nat)
    {k : String} {tt : Bool} {g : Nat} (h : content.lookup k = some (.vother tt g)) :
    (truncateContent content maxChars).lookup k = some (.vother tt g) := by
  induction content with
  | nil => simp [List.lookup] at h
  | cons kv t ih =>
    obtain ⟨k', v⟩ := kv
    rw [List.lookup_cons] at h
    rw [truncateContent_cons, List.lookup_cons]
    cases hbe : (k == k') with
    | true =>
      rw [hbe] at h
      simp only [Option.some.injEq] at h
      subst h
      simp
    | false =>
      rw [hbe] at h
      exact ih h

/-! ## Claim C1 -/

/-- Claim C1, counterexample: the claim asserts that no query against a
project — the conflict detector's window query included — returns an event
older than the most recent isolation boundary.  In this timeline the
boundary `c1marker` (id 2) sits between two `file_edit` events of the same
file by different agents, and both `getConflicts` and `handleCheckConflicts`
return the pre-boundary event `c1edit1` (id 1 < 2): the conflict query
applies no isolation filter at all. -/
theorem c1_conflicts_ignore_isolation_boundary :
    c1marker.isolated = true ∧ c1marker.project_path = "p" ∧
    c1edit1.id < c1marker.id ∧
    getConflicts c1timeline "p" 60 none 300 = [(.vstr "/f.ts", [c1edit2, c1edit1])] ∧
    handleCheckConflicts c1timeline "p" 60 none 300 (fun _ => none)
      = [(.vstr "/f.ts", [c1edit2, c1edit1])] := by
  refine ⟨rfl, rfl, by decide, by decide, by decide⟩

/-- Claim C1 (amended): for the timeline query `getRecentEvents` the
isolation floor holds — after an isolation-boundary event `b` is written in
project P, provided every earlier isolated event of P has a strictly smaller
timestamp (true of the store's monotone clock unless two isolation markers
share a millisecond), no query against P, regardless of limit, cursor,
action-type or tag filters, returns an event with `id < b.id`.  The
conflict-window query (`getConflicts`) is exempt: it applies no isolation
filter (see the counterexample). -/
theorem c1_isolation_floor_for_getRecentEvents
    (tl : List Event) (project : String) (b : Event)
    (hb : b ∈ tl) (hproj : b.project_path = project) (hiso : b.isolated = true)
    (hts : ∀ e ∈ tl, e.project_path = project → e.isolated = true → e.id < b.id →
      e.timestamp < b.timestamp)
    (limit : Nat) (since_cursor : Option String)
    (action_types tags : Option (List String)) :
    ∀ e ∈ (getRecentEvents tl project limit since_cursor action_types tags).events,
      b.id ≤ e.id := by
  intro e he
  have hev : (getRecentEvents tl project limit since_cursor action_types tags).events
      = ((sortByB tsDesc
          (tl.filter (passesFilters tl project since_cursor action_types tags))).take
            limit).reverse := rfl
  rw [hev] at he
  have hef := mem_query_events he
  have hpred : passesFilters tl project since_cursor action_types tags e = true :=
    (List.mem_filter.mp hef).2
  have hbc : b ∈ tl.filter (fun e => e.project_path == project && e.isolated) :=
    List.mem_filter.mpr ⟨hb, by simp [hproj, hiso]⟩
  obtain ⟨m, hm⟩ : ∃ m,
      pickMaxTs (tl.filter (fun e => e.project_path == project && e.isolated)) = some m := by
    cases hpm : pickMaxTs (tl.filter (fun e => e.project_path == project && e.isolated)) with
    | none => exact absurd (pickMaxTs_eq_none.mp hpm ▸ hbc) (List.not_mem_nil _)
    | some m => exact ⟨m, rfl⟩
  have hmc := pickMaxTs_mem hm
  have hble : b.timestamp ≤ m.timestamp := pickMaxTs_ge hm b hbc
  have hmtl : m ∈ tl := (List.mem_filter.mp hmc).1
  have hmpr : m.project_path = project ∧ m.isolated = true := by
    have := (List.mem_filter.mp hmc).2
    simpa using this
  have hbm : b.id ≤ m.id := by
    by_contra hlt
    push_neg at hlt
    exact absurd hble (not_le.mpr (hts m hmtl hmpr.1 hmpr.2 hlt))
  have hisoq : latestIsolation tl project = some m := hm
  exact hbm.trans (passesFilters_iso_le hpred hisoq)

/-- Claim C1, witness for the amended theorem: in the concrete boundary
timeline, the pre-boundary event is not returned by the plain query. -/
theorem c1_isolation_floor_witness :
    c1edit1 ∉ (getRecentEvents c1timeline "p" 5 none none none).events := by
  intro hmem
  have h := c1_isolation_floor_for_getRecentEvents c1timeline "p" c1marker
    (by decide) rfl rfl (by decide) 5 none none none c1edit1 hmem
  exact absurd h (by decide)

/-! ## Claim C4 -/

/-- Claim C4: pure delta queries.  Querying with event e1's cursor
(`evt_<e1.id>`) never returns e1 or any event with `id ≤ e1.id`, whatever
the other filters; and any stored event that satisfies the query's filter
predicate is returned whenever the whole filtered set fits within the limit
(in particular any later-written event e2 passing the other filters).  The
cursor round-trip is exact: no duplicate redelivery, no gaps. -/
theorem c4_delta_query_pure (tl : List Event) (project : String) (e1 : Event)
    (limit : Nat) (action_types tags : Option (List String)) :
    e1 ∉ (getRecentEvents tl project limit (some ("evt_" ++ natToDec e1.id))
        action_types tags).events ∧
    (∀ e ∈ (getRecentEvents tl project limit (some ("evt_" ++ natToDec e1.id))
        action_types tags).events, e1.id < e.id) ∧
    (∀ e2 ∈ tl,
      passesFilters tl project (some ("evt_" ++ natToDec e1.id)) action_types tags e2
        = true →
      (tl.filter (passesFilters tl project (some ("evt_" ++ natToDec e1.id))
        action_types tags)).length ≤ limit →
      e2 ∈ (getRecentEvents tl project limit (some ("evt_" ++ natToDec e1.id))
        action_types tags).events) := by
  have hev : (getRecentEvents tl project limit (some ("evt_" ++ natToDec e1.id))
      action_types tags).events
      = ((sortByB tsDesc (tl.filter (passesFilters tl project
          (some ("evt_" ++ natToDec e1.id)) action_types tags))).take limit).reverse := rfl
  have hkey : ∀ e ∈ (getRecentEvents tl project limit
      (some ("evt_" ++ natToDec e1.id)) action_types tags).events, e1.id < e.id := by
    intro e he
    rw [hev] at he
    have hpred := (List.mem_filter.mp (mem_query_events he)).2
    exact passesFilters_cursor_lt hpred (evt_cursor_ne_empty e1.id) (parseCursor_evt e1.id)
  refine ⟨fun hmem => absurd (hkey e1 hmem) (lt_irrefl e1.id), hkey, ?_⟩
  intro e2 h2 hpred hlen
  rw [hev]
  exact mem_query_events_of_small (List.mem_filter.mpr ⟨h2, hpred⟩) hlen

/-- Claim C4, witness: with two events in the project, querying with the
first event's cursor excludes it and returns the second. -/
theorem c4_delta_query_witness :
    c4e1 ∉ (getRecentEvents c4timeline "p" 5 (some ("evt_" ++ natToDec c4e1.id))
        none none).events ∧
    c4e2 ∈ (getRecentEvents c4timeline "p" 5 (some ("evt_" ++ natToDec c4e1.id))
        none none).events :=
  ⟨(c4_delta_query_pure c4timeline "p" c4e1 5 none none).1,
   (c4_delta_query_pure c4timeline "p" c4e1 5 none none).2.2 c4e2 (by decide)
     (by decide) (by decide)⟩

/-! ## Claim C2 -/

/-- Claim C2, evaluated at the failing input: `addEvent` persists the tags
of an event as a JSON array string (`["urgent"]`), but the tag filter of
`getRecentEvents` matches the stored column as a comma-separated list
(`(',' || tags || ',') LIKE '%,urgent,%'`).  The JSON quoting means the
pattern can never match what `addEvent` wrote: a query for the very tag the
event carries returns nothing, while a legacy comma-separated value would
match.  The claim (and the writer's own comments) require the stored tag to
match; the reader side contradicts the writer side. -/
theorem c2_tag_filter_never_matches_stored_json_tags :
    (c2timeline.map Event.tags) = [some "[\"urgent\"]"] ∧
    (getRecentEvents c2timeline "p" 5 none none (some ["urgent"])).events = [] ∧
    tagCond (some "[\"urgent\"]") "urgent" = false ∧
    tagCond (some "urgent,legacy") "urgent" = true := by
  refine ⟨by decide, by decide, by decide, by decide⟩

/-! ## Claim C3 -/

/-- Claim C3: the staleness validation examples.  (1) For any readable file
whose trimmed lines contain `console.log('current');`, the diff adding that
line validates true.  (2) Against the spec's example file (containing
exactly that line) the diff adding `console.log('missing');` validates
false.  (3) Any diff containing a removed line whose (non-empty) trimmed
text still occurs in the current file content validates false.  (4) An
event with no diff (null patch) always validates true. -/
theorem c3_staleness_validation_examples :
    (∀ (fp pp content : String) (fs : String → Option String),
      fs (resolvePath fp pp) = some content →
      "console.log('current');" ∈ (splitNl content).map jsTrim →
      validatePatch fp (extractPatch (some "+ console.log('current');")) pp fs = true) ∧
    validatePatch "/f.ts" (extractPatch (some "+ console.log('missing');")) "" c3fs
      = false ∧
    (∀ (fp pp d l content : String) (fs : String → Option String),
      l ∈ splitNl d → isRem l = true → jsTrim (dropMarker l) ≠ "" →
      fs (resolvePath fp pp) = some content →
      sContains content (jsTrim (dropMarker l)) = true →
      validatePatch fp (extractPatch (some d)) pp fs = false) ∧
    (∀ (fp pp : String) (fs : String → Option String),
      validatePatch fp (extractPatch none) pp fs = true) := by
  refine ⟨?_, by decide, ?_, fun _ _ _ => rfl⟩
  · intro fp pp content fs hfs hline
    have hex : extractPatch (some "+ console.log('current');")
        = some "+ console.log('current');" := by decide
    rw [hex, validatePatch_some_eval (by decide) hfs]
    have hsplit : splitNl "+ console.log('current');" = ["+ console.log('current');"] := by
      decide
    rw [hsplit]
    have hrsp : removedStillPresent content ["+ console.log('current');"] = false := by
      have hir : isRem "+ console.log('current');" = false := by decide
      simp [removedStillPresent, hir]
    rw [hrsp]
    have hadd : addedContents ["+ console.log('current');"]
        = ["console.log('current');"] := by decide
    rw [hadd]
    have hlm : lineMatches ((splitNl content).map jsTrim) "console.log('current');"
        = true := by
      have hc : ((splitNl content).map jsTrim).contains "console.log('current');"
          = true := List.elem_iff.mpr hline
      rw [lineMatches, hc]
      rfl
    simp [List.countP_cons, hlm, validationThreshold]
  · intro fp pp d l content fs hl hrem hne hfs hsub
    have hlk : l ∈ (splitNl d).filter (fun x => isAdd x || isRem x || isCtx x) :=
      List.mem_filter.mpr ⟨hl, by simp [hrem]⟩
    have hkne : (splitNl d).filter (fun x => isAdd x || isRem x || isCtx x) ≠ [] :=
      List.ne_nil_of_mem hlk
    have hdne : (d == "") = false := by
      apply beq_eq_false_iff_ne.mpr
      intro heq
      subst heq
      have : l = "" := by simpa [splitNl, splitLines] using hl
      subst this
      exact absurd hrem (by decide)
    have hex : extractPatch (some d)
        = some (joinNl ((splitNl d).filter (fun x => isAdd x || isRem x || isCtx x))) := by
      simp only [extractPatch, hdne, Bool.false_eq_true, if_false]
      rw [if_neg (by simp [List.isEmpty_iff, hkne])]
    have hnonl : ∀ s ∈ (splitNl d).filter (fun x => isAdd x || isRem x || isCtx x),
        '\n' ∉ s.data := fun s hs => splitNl_no_nl d s (List.mem_of_mem_filter hs)
    have hsplit2 : splitNl (joinNl ((splitNl d).filter
        (fun x => isAdd x || isRem x || isCtx x)))
        = (splitNl d).filter (fun x => isAdd x || isRem x || isCtx x) :=
      splitNl_joinNl hkne hnonl
    have hjne : ((joinNl ((splitNl d).filter (fun x => isAdd x || isRem x || isCtx x)))
        == "") = false := by
      cases hk : (splitNl d).filter (fun x => isAdd x || isRem x || isCtx x) with
      | nil => exact absurd hk hkne
      | cons k kr =>
        have hkmem : k ∈ (splitNl d).filter (fun x => isAdd x || isRem x || isCtx x) := by
          rw [hk]
          exact List.mem_cons_self k kr
        exact joinNl_cons_ne_empty (kept_line_ne_nil (List.mem_filter.mp hkmem).2)
    rw [hex, validatePatch_some_eval hjne hfs, hsplit2]
    have hrsp : removedStillPresent content
        ((splitNl d).filter (fun x => isAdd x || isRem x || isCtx x)) = true := by
      apply List.any_eq_true.mpr
      refine ⟨l, hlk, ?_⟩
      rw [hrem]
      simp [hne, hsub]
    rw [hrsp]
    simp

/-- Claim C3, witness: the current-line diff validates true and a
removed-but-still-present line validates false against the spec's example
file. -/
theorem c3_staleness_validation_witness :
    validatePatch "/f.ts" (extractPatch (some "+ console.log('current');")) "" c3fs
      = true ∧
    validatePatch "/f.ts" (extractPatch (some "- console.log('current');")) "" c3fs
      = false :=
  ⟨c3_staleness_validation_examples.1 "/f.ts" "" "console.log('current');" c3fs
      (by decide) (by decide),
   c3_staleness_validation_examples.2.2.1 "/f.ts" "" "- console.log('current');"
      "- console.log('current');" "console.log('current');" c3fs (by decide) (by decide)
      (by decide) (by decide) (by decide)⟩

/-! ## Claim C7 -/

/-- Claim C7, counterexample: a patch of two empty added lines (`"+\n+"`)
against a readable file containing `x`.  By the claim's own match rule (a
containment in either direction — the empty string is contained in every
line) both added lines match, `2 ≥ ⌈0.6 × 2⌉ = 2`, so the claim predicts
`true`; but `validatePatch` skips empty trimmed added lines in the match
count while still counting them in the total, and returns `false`. -/
theorem c7_empty_added_lines_counterexample :
    validatePatch "/f.ts" (some "+\n+") "" c7fs = false ∧
    addedContents (splitNl "+\n+") = ["", ""] ∧
    ((addedContents (splitNl "+\n+")).countP
      (fun l => claimLineMatches ((splitNl "x").map jsTrim) l)) = 2 ∧
    claimThreshold (addedContents (splitNl "+\n+")).length = 2 := by
  refine ⟨by decide, by decide, by decide, ?_⟩
  have h : claimThreshold 2 = 2 := by
    rw [claimThreshold, ceil_three_fifths]
  exact h

/-- Claim C7 (amended): for every patch with at least one added line, when
no removed line with non-empty trimmed text is still present and the file is
readable, `validatePatch` returns true iff the number of added lines that
are non-empty after trimming and fuzzy-match a current file line (exact
trimmed equality, or containment in either direction) reaches
`⌈0.6 × total added lines⌉` — an added line whose trimmed text is empty
never counts as a match but still counts toward the total. -/
theorem c7_staleness_threshold (fp pp content patch : String)
    (fs : String → Option String)
    (hfs : fs (resolvePath fp pp) = some content)
    (hadd : ∃ l ∈ splitNl patch, isAdd l = true)
    (hrem : ∀ l ∈ splitNl patch, isRem l = true →
      jsTrim (dropMarker l) = "" ∨ sContains content (jsTrim (dropMarker l)) = false) :
    (validatePatch fp (some patch) pp fs = true ↔
      claimThreshold (addedContents (splitNl patch)).length ≤
        (addedContents (splitNl patch)).countP
          (fun l => lineMatches ((splitNl content).map jsTrim) l)) := by
  obtain ⟨l0, hl0, hA0⟩ := hadd
  have hpne : (patch == "") = false := by
    apply beq_eq_false_iff_ne.mpr
    intro heq
    subst heq
    have : l0 = "" := by simpa [splitNl, splitLines] using hl0
    subst this
    exact absurd hA0 (by decide)
  rw [validatePatch_some_eval hpne hfs]
  have hrsp : removedStillPresent content (splitNl patch) = false := by
    rw [removedStillPresent]
    rw [List.any_eq_false]
    intro l hl
    by_cases hr : isRem l = true
    · rcases hrem l hl hr with h1 | h1
      · simp [hr, h1]
      · simp [hr, h1]
    · simp [Bool.eq_false_iff.mpr hr]
  rw [hrsp]
  simp only [Bool.false_eq_true, if_false]
  have hne : (addedContents (splitNl patch)).isEmpty = false := by
    have hmem : jsTrim (dropMarker l0) ∈ addedContents (splitNl patch) :=
      List.mem_filterMap.mpr ⟨l0, hl0, by rw [hA0]; simp⟩
    simp [List.isEmpty_iff, List.ne_nil_of_mem hmem]
  rw [hne]
  simp only [Bool.false_eq_true, if_false]
  rw [claimThreshold, ceil_three_fifths]
  simp [validationThreshold, decide_eq_true_eq]

/-- Claim C7, witness for the amended theorem: a single added line present
in the file meets the threshold `⌈0.6 × 1⌉ = 1` and validates true. -/
theorem c7_staleness_threshold_witness :
    validatePatch "/f.ts" (some "+ x") "" c7fs = true :=
  (c7_staleness_threshold "/f.ts" "" "x" "+ x" c7fs (by decide) (by decide)
      (by decide)).mpr
    (by
      show claimThreshold 1 ≤ 1
      rw [claimThreshold, ceil_three_fifths])

/-! ## Claim C10 -/

/-- Claim C10, counterexample: the claim says the filter drops only
`file_edit` events whose `rejected` flag is set, but a non-rejected
`file_edit` whose stored diff fails validation against the current file is
dropped too. -/
theorem c10_validation_failure_also_drops :
    filterStaleFileEdits [c10edit] "p" c5fs = [] ∧
    c10edit.rejected = false ∧ c10edit.action = "file_edit" := by
  refine ⟨by decide, rfl, rfl⟩

/-- Claim C10 (amended): `filterStaleFileEdits` drops exactly the
`file_edit` events whose `rejected` flag is set or whose parsable payload
carries a non-empty string `file_path` and a non-empty string `diff` whose
extracted patch fails validation.  In particular: every non-`file_edit`
event is kept even when its `rejected` flag is set; a `file_edit` with an
unparsable payload is kept; and one with a missing or falsy `file_path` or
a missing or falsy `diff` is kept. -/
theorem c10_filter_stale_semantics (events : List Event) (pp : String)
    (fs : String → Option String) :
    (∀ e ∈ events, e.action ≠ "file_edit" → e ∈ filterStaleFileEdits events pp fs) ∧
    (∀ e ∈ events, e.action = "file_edit" → e.rejected = true →
      e ∉ filterStaleFileEdits events pp fs) ∧
    (∀ e ∈ events, e.payload = .malformed → e.rejected = false →
      e ∈ filterStaleFileEdits events pp fs) ∧
    (∀ e ∈ events, ∀ fields, e.payload = .obj fields → e.rejected = false →
      (fields.lookup "file_path" = none ∨
       (∃ fp, fields.lookup "file_path" = some fp ∧ fp.falsy = true) ∨
       fields.lookup "diff" = none ∨
       (∃ dv, fields.lookup "diff" = some dv ∧ dv.falsy = true)) →
      e ∈ filterStaleFileEdits events pp fs) ∧
    (∀ e ∈ events, e ∉ filterStaleFileEdits events pp fs →
      e.action = "file_edit" ∧
        (e.rejected = true ∨
          ∃ fields s d, e.payload = .obj fields ∧
            fields.lookup "file_path" = some (.vstr s) ∧ s ≠ "" ∧
            fields.lookup "diff" = some (.vstr d) ∧ d ≠ "" ∧
            validatePatch s (extractPatch (some d)) pp fs = false)) := by
  have hkept : ∀ e ∈ events, keepEvent pp fs e = true →
      e ∈ filterStaleFileEdits events pp fs :=
    fun e he hk => List.mem_filter.mpr ⟨he, hk⟩
  have hnotfalse : ∀ e, ¬(keepEvent pp fs e = false) → keepEvent pp fs e = true := by
    intro e h
    cases hk : keepEvent pp fs e with
    | false => exact absurd hk h
    | true => rfl
  refine ⟨?_, ?_, ?_, ?_, ?_⟩
  · intro e he hne
    refine hkept e he (hnotfalse e ?_)
    intro hf
    exact hne ((keepEvent_eq_false_iff pp fs e).mp hf).1
  · intro e he hact hrej hmem
    have hk : keepEvent pp fs e = true := (List.mem_filter.mp hmem).2
    have : keepEvent pp fs e = false :=
      (keepEvent_eq_false_iff pp fs e).mpr ⟨hact, Or.inl hrej⟩
    rw [hk] at this
    exact absurd this (by decide)
  · intro e he hmal hrej
    refine hkept e he (hnotfalse e ?_)
    intro hf
    rcases (keepEvent_eq_false_iff pp fs e).mp hf with ⟨-, h | ⟨fields, s, d, hps, -⟩⟩
    · rw [hrej] at h
      exact absurd h (by decide)
    · rw [hmal] at hps
      exact absurd hps (by simp)
  · intro e he fields hobj hrej hcase
    refine hkept e he (hnotfalse e ?_)
    intro hf
    rcases (keepEvent_eq_false_iff pp fs e).mp hf with
      ⟨-, h | ⟨fields', s, d, hps, hfps, hs, hdvs, hd, -⟩⟩
    · rw [hrej] at h
      exact absurd h (by decide)
    · rw [hobj] at hps
      injection hps with hfe
      subst hfe
      rcases hcase with h1 | ⟨fp, h2, h2f⟩ | h3 | ⟨dv, h4, h4f⟩
      · rw [h1] at hfps
        exact absurd hfps (by simp)
      · rw [h2] at hfps
        injection hfps with hv
        subst hv
        simp [JsVal.falsy, hs] at h2f
      · rw [h3] at hdvs
        exact absurd hdvs (by simp)
      · rw [h4] at hdvs
        injection hdvs with hv
        subst hv
        simp [JsVal.falsy, hd] at h4f
  · intro e he hnmem
    apply (keepEvent_eq_false_iff pp fs e).mp
    by_contra hne
    exact hnmem (hkept e he (hnotfalse e hne))

/-- Claim C10, witness for the amended theorem: a rejected non-file-edit is
kept, a rejected file edit is dropped, and a file edit with no diff is
kept. -/
theorem c10_filter_stale_witness :
    c10decision ∈ filterStaleFileEdits c10events "p" c5fs ∧
    c10rejected ∉ filterStaleFileEdits c10events "p" c5fs ∧
    c10nodiff ∈ filterStaleFileEdits c10events "p" c5fs :=
  ⟨(c10_filter_stale_semantics c10events "p" c5fs).1 c10decision (by decide) (by decide),
   (c10_filter_stale_semantics c10events "p" c5fs).2.1 c10rejected (by decide) rfl rfl,
   (c10_filter_stale_semantics c10events "p" c5fs).2.2.2.1 c10nodiff (by decide)
     [("file_path", .vstr "/f.ts")] rfl rfl (by decide)⟩

/-! ## Claim C5 -/

/-- Claim C5, counterexample: two agents edited `/f.ts` inside the window,
so the group passes the pre-filter two-distinct-agents check; agent b's edit
is stale and is dropped by the staleness re-validation, after which the code
only checks that more than one edit (by count) survives — the file is
reported although the surviving group has a single distinct agent. -/
theorem c5_single_agent_group_reported_after_staleness :
    handleCheckConflicts c5timeline "p" 60 none 300 c5fs
      = [(.vstr "/f.ts", [c5a2, c5a1])] ∧
    (([c5a2, c5a1].map Event.agent_id).dedup).length = 1 := by
  refine ⟨by decide, by decide⟩

/-- Claim C5 (amended): every file in the conflict report comes from a
window group with at least two distinct `agent_id` values and retains at
least two valid (non-stale) edits after the staleness filter — by count,
not necessarily by distinct agent; and a single agent being the only author
of `file_edit` events in the project never produces any conflict entry. -/
theorem c5_conflict_report_requires_two_agents (tl : List Event) (project : String)
    (time_window_mins : Nat) (files : Option (List String)) (now : Nat)
    (fs : String → Option String) :
    (∀ entry ∈ handleCheckConflicts tl project time_window_mins files now fs,
      2 ≤ entry.2.length ∧
      ∃ g ∈ getConflicts tl project time_window_mins files now,
        entry = (g.1, filterStaleFileEdits g.2 project fs) ∧
        1 < ((g.2.map Event.agent_id).dedup).length) ∧
    (∀ a : String,
      (∀ e ∈ tl, e.project_path = project → e.action = "file_edit" → e.agent_id = a) →
      handleCheckConflicts tl project time_window_mins files now fs = []) := by
  constructor
  · intro entry hentry
    rcases mem_handleCheckConflicts.mp hentry with ⟨g, hg, rfl, hl⟩
    refine ⟨hl, g, hg, rfl, ?_⟩
    have := (List.mem_filter.mp hg).2
    exact of_decide_eq_true this
  · intro a ha
    have hempty : getConflicts tl project time_window_mins files now = [] := by
      simp only [getConflicts]
      rw [List.filter_eq_nil_iff]
      intro g hg
      have hall : ∀ e ∈ g.2, e.agent_id = a := by
        refine foldl_conflictStep_mem _ (fun e => e.agent_id = a) [] (by simp) ?_ g hg
        intro e' he'
        have hm := List.mem_filter.mp (mem_sortByB.mp he')
        have h2 := hm.2
        simp only [Bool.and_eq_true, beq_iff_eq, decide_eq_true_eq] at h2
        exact ha e' hm.1 h2.1.1 h2.2
      have hle : ((g.2.map Event.agent_id).dedup).length ≤ 1 := by
        apply dedup_length_le_one
        intro x hx
        rcases List.mem_map.mp hx with ⟨e, he, rfl⟩
        exact hall e he
      simp only [decide_eq_true_eq]
      omega
    rw [handleCheckConflicts, hempty]
    rfl

/-- Claim C5, witness for the amended theorem: the reported group of the
mixed-agents scenario keeps at least two valid edits, and a timeline where
only one agent ever edits files reports no conflicts. -/
theorem c5_conflict_report_witness :
    2 ≤ ((JsVal.vstr "/f.ts", [c5a2, c5a1]) : JsVal × List Event).2.length ∧
    handleCheckConflicts [c5a1, c5a2] "p" 60 none 300 c5fs = [] :=
  ⟨((c5_conflict_report_requires_two_agents c5timeline "p" 60 none 300 c5fs).1
      (JsVal.vstr "/f.ts", [c5a2, c5a1]) (by decide)).1,
   (c5_conflict_report_requires_two_agents [c5a1, c5a2] "p" 60 none 300 c5fs).2
      "agent-a" (by decide)⟩

/-! ## Claim C6 -/

/-- Claim C6, counterexample: with the whitespace-only query `" "` the code
treats the query as absent (`query.trim()` is falsy), so neither object gets
the title boost and the list comes out sorted by bare confidence — but the
claim's score formula gives the `+0.5` boost to any title containing a space
(`"a b"` contains `" "`), predicting the opposite order: the returned list
is not sorted descending by the claimed score. -/
theorem c6_whitespace_query_breaks_claimed_ordering :
    searchProjectKnowledge [c6obj1, c6obj2] "p" .unknown (some " ") 10
      = [⟨.decision, "xy", mkRat 3 5⟩, ⟨.decision, "a b", mkRat 1 2⟩] ∧
    claimScore .unknown (some " ") ⟨.decision, "xy", mkRat 3 5⟩
      < claimScore .unknown (some " ") ⟨.decision, "a b", mkRat 1 2⟩ := by
  refine ⟨by decide, by decide⟩

/-- Claim C6 (amended): for every project, intent, and query, the ranked
object list underlying `searchProjectKnowledge` (whose truncation and
projection is the returned list) is strictly ordered: descending by score,
where score = confidence, plus `+2.0` / `+1.5` for the intent's first /
second preferred type, plus `+0.5` when the query is active (present, with
non-whitespace content) and the lower-cased title contains the trimmed
lower-cased query; equal scores are ordered by strictly ascending object id
(ids are unique in the store), so the output is deterministic.  A missing,
empty, or whitespace-only query contributes no boost and no filtering. -/
theorem c6_search_ordering (kb : List KnowledgeObject) (project : String)
    (intent : SearchIntent) (query : Option String) (maxResults : Nat)
    (hnd : (kb.map KnowledgeObject.id).Nodup) :
    (searchScored kb project intent query).Pairwise
      (fun a b => scoreOf intent query b < scoreOf intent query a ∨
        (scoreOf intent query a = scoreOf intent query b ∧ a.id < b.id)) ∧
    searchProjectKnowledge kb project intent query maxResults
      = ((searchScored kb project intent query).take maxResults).map
          (fun o => ⟨o.knowledge_type, o.title, o.confidence⟩) := by
  refine ⟨?_, rfl⟩
  have hsorted : (searchScored kb project intent query).Pairwise
      (fun a b => scoreCmp intent query a b = true) := by
    have hgoal : searchScored kb project intent query
        = sortByB (scoreCmp intent query)
            (if queryActive query
             then (sortByB confRecencyCmp
               (kb.filter (fun o => o.project_path == project))).filter
                 (matchesQuery (query.getD ""))
             else sortByB confRecencyCmp
               (kb.filter (fun o => o.project_path == project))) := rfl
    rw [hgoal]
    exact pairwise_sortByB (scoreCmp_total intent query) (scoreCmp_trans intent query) _
  have hne : (searchScored kb project intent query).Pairwise
      (fun a b => a.id ≠ b.id) :=
    List.pairwise_map.mp (searchScored_ids_nodup kb project intent query hnd)
  refine (hsorted.and hne).imp ?_
  rintro a b ⟨hcmp, hid⟩
  rcases scoreCmp_iff.mp hcmp with h | ⟨h, hle⟩
  · exact Or.inl h
  · exact Or.inr ⟨h, lt_of_le_of_ne hle hid⟩

/-- Claim C6, witness for the amended theorem at a concrete store. -/
theorem c6_search_ordering_witness :
    searchProjectKnowledge [c6obj1, c6obj2] "p" .debugging none 10
      = ((searchScored [c6obj1, c6obj2] "p" .debugging none).take 10).map
          (fun o => ⟨o.knowledge_type, o.title, o.confidence⟩) :=
  (c6_search_ordering [c6obj1, c6obj2] "p" .debugging none 10 (by decide)).2

/-! ## Claim C8 -/

/-- Claim C8: duplicate knowledge rejection (the save handler is modelled
from the spec, see `handleSaveKnowledge`).  Saving a triple that does not
yet exist succeeds with the fresh id; immediately saving the same
`(project_path, knowledge_type, title)` again — even with different content
— returns the explicit duplicate signal and leaves the store untouched, so
exactly one object with that triple is stored; and the check-then-insert
discipline preserves the invariant that no two stored objects share a
triple. -/
theorem c8_duplicate_knowledge_rejected (kb : List KnowledgeObject)
    (project : String) (kt : KnowledgeType) (title content content2 : String)
    (src src2 : Option Nat) (conf conf2 : ℚ) (now1 now2 : Nat)
    (hlen : ¬title.data.length > 200)
    (hnew : knowledgeObjectExists kb project kt title = false) :
    (handleSaveKnowledge kb project kt title content src conf now1).2
        = .ok (nextKId kb) ∧
    (handleSaveKnowledge (handleSaveKnowledge kb project kt title content src conf now1).1
        project kt title content2 src2 conf2 now2).2 = .duplicate ∧
    (handleSaveKnowledge (handleSaveKnowledge kb project kt title content src conf now1).1
        project kt title content2 src2 conf2 now2).1
      = (handleSaveKnowledge kb project kt title content src conf now1).1 ∧
    ((handleSaveKnowledge kb project kt title content src conf now1).1.countP
        (fun o => o.project_path == project && o.knowledge_type == kt &&
          o.title == title)) = 1 ∧
    (∀ (kb2 : List KnowledgeObject) (p2 : String) (kt2 : KnowledgeType)
        (t2 c2 : String) (s2 : Option Nat) (cf2 : ℚ) (n2 : Nat),
      NoDupTriples kb2 → NoDupTriples (handleSaveKnowledge kb2 p2 kt2 t2 c2 s2 cf2 n2).1) := by
  have h1 : handleSaveKnowledge kb project kt title content src conf now1
      = (kb ++ [⟨nextKId kb, project, kt, title, content, src, conf, now1⟩],
          .ok (nextKId kb)) := by
    rw [handleSaveKnowledge, if_neg hlen, if_neg (by simp [hnew])]
    rfl
  have hpredobj : (fun (o : KnowledgeObject) => o.project_path == project &&
      o.knowledge_type == kt && o.title == title)
        ⟨nextKId kb, project, kt, title, content, src, conf, now1⟩ = true := by
    simp
  have hex2 : knowledgeObjectExists
      (kb ++ [⟨nextKId kb, project, kt, title, content, src, conf, now1⟩])
      project kt title = true := by
    rw [knowledgeObjectExists, List.any_append]
    simp
  refine ⟨by rw [h1], ?_, ?_, ?_, ?_⟩
  · rw [h1]
    rw [handleSaveKnowledge, if_neg hlen, if_pos hex2]
  · rw [h1]
    rw [handleSaveKnowledge, if_neg hlen, if_pos hex2]
  · rw [h1]
    rw [List.countP_append]
    have hz : kb.countP (fun o => o.project_path == project &&
        o.knowledge_type == kt && o.title == title) = 0 := by
      rw [List.countP_eq_zero]
      intro o ho hpred
      have : knowledgeObjectExists kb project kt title = true :=
        List.any_eq_true.mpr ⟨o, ho, hpred⟩
      rw [hnew] at this
      exact absurd this (by decide)
    rw [hz]
    simp
  · intro kb2 p2 kt2 t2 c2 s2 cf2 n2 hinv
    rw [handleSaveKnowledge]
    by_cases hl2 : t2.data.length > 200
    · rw [if_pos hl2]
      exact hinv
    · rw [if_neg hl2]
      by_cases hx2 : knowledgeObjectExists kb2 p2 kt2 t2 = true
      · rw [if_pos hx2]
        exact hinv
      · rw [if_neg hx2]
        refine List.pairwise_append.mpr ⟨hinv, by simp, ?_⟩
        intro o1 ho1 o2 ho2
        simp only [List.mem_singleton] at ho2
        subst ho2
        rintro ⟨hpp, hkt, ht⟩
        exact hx2 (List.any_eq_true.mpr ⟨o1, ho1, by simp [hpp, hkt, ht]⟩)

/-- Claim C8, witness: a concrete double save of the same triple. -/
theorem c8_duplicate_knowledge_witness :
    (handleSaveKnowledge [] "p" .decision "X" "use TS" none (mkRat 1 1) 5).2
        = .ok (nextKId []) ∧
    (handleSaveKnowledge (handleSaveKnowledge [] "p" .decision "X" "use TS" none
        (mkRat 1 1) 5).1 "p" .decision "X" "other content" none (mkRat 1 1) 6).2
      = .duplicate :=
  ⟨(c8_duplicate_knowledge_rejected [] "p" .decision "X" "use TS" "other content"
      none none (mkRat 1 1) (mkRat 1 1) 5 6 (by decide) (by decide)).1,
   (c8_duplicate_knowledge_rejected [] "p" .decision "X" "use TS" "other content"
      none none (mkRat 1 1) (mkRat 1 1) 5 6 (by decide) (by decide)).2.1⟩

/-! ## Claim C9 -/

/-- Claim C9: when logging an event, `handleLog` stores the truncated
content as the event's payload; every string field is passed through
`truncatePayload` with the configured `max_payload_chars` except the `diff`
field, which is stored verbatim regardless of length (so staleness
validation later sees the full original diff); non-string fields are stored
unchanged. -/
theorem c9_diff_stored_verbatim (tl : List Event) (agent action : String)
    (content : List (String × JsVal)) (project : String) (isolate : Bool)
    (session : Option String) (tags : List String) (maxChars now : Nat) :
    (handleLog tl agent action content project isolate session tags maxChars now).1
      = tl ++ [⟨nextId tl, agent, action, .obj (truncateContent content maxChars), now,
          project, isolate, session,
          if tags.length > 0 then some (jsonArr tags) else none, false⟩] ∧
    (∀ s, content.lookup "diff" = some (.vstr s) →
      (truncateContent content maxChars).lookup "diff" = some (.vstr s)) ∧
    (∀ k s, k ≠ "diff" → content.lookup k = some (.vstr s) →
      (truncateContent content maxChars).lookup k
        = some (.vstr (truncatePayload s maxChars))) ∧
    (∀ (k : String) (tt : Bool) (g : Nat),
      content.lookup k = some (.vother tt g) →
      (truncateContent content maxChars).lookup k = some (.vother tt g)) :=
  ⟨rfl, fun _ h => truncate_lookup_diff maxChars h,
   fun _ _ hk h => truncate_lookup_str maxChars hk h,
   fun _ _ _ h => truncate_lookup_other maxChars h⟩

/-- Claim C9, witness: with `max_payload_chars = 10`, the long description
is truncated, the longer diff is stored verbatim, and the non-string field
is untouched. -/
theorem c9_diff_stored_verbatim_witness :
    (truncateContent c9content 10).lookup "diff"
        = some (.vstr "+ a very long diff body") ∧
    (truncateContent c9content 10).lookup "description"
        = some (.vstr (truncatePayload "refactor everything" 10)) ∧
    (truncateContent c9content 10).lookup "count" = some (.vother true 7) :=
  ⟨(c9_diff_stored_verbatim [] "a" "file_edit" c9content "p" false none [] 10 0).2.1
      "+ a very long diff body" (by decide),
   (c9_diff_stored_verbatim [] "a" "file_edit" c9content "p" false none [] 10 0).2.2.1
      "description" "refactor everything" (by decide) (by decide),
   (c9_diff_stored_verbatim [] "a" "file_edit" c9content "p" false none [] 10 0).2.2.2
      "count" true 7 (by decide)⟩

end Wormhole
